import Mathlib

/-!
# Verification development for `go-universal/flatten`

A shallow embedding of the flattening engine (`collect.go`, `flatten.go`,
`option.go`, `resolver.go`, `util.go`) followed by theorems about it.

## How Go values are represented

The Go code inspects its input through `reflect`.  A value of static type
`any` is represented by the tree `Value`: each node records the dynamic type
(`Ty`, the key of the transformer registry) and exactly the data the code
observes.  Strings are Lean strings (sequences of Unicode scalar values); the
byte-wise order of their UTF-8 encodings, which `sort.Strings` uses, is the
order of Lean strings (`le_iff_utf8Bytes_le`).

Library functions that are not part of the repository and whose output is not
fixed by a simple rule (`fmt.Sprintf("%v", ·)` on exotic kinds and
`strconv.FormatFloat`) are fields of `Runtime`, next to the package-level
`transformers` map.  Values are finite trees, so cyclic structures (on which
the Go code does not terminate) are outside the embedding, and so are maps with
a key that cannot be looked up (on which it panics).  A registered function is
represented by what it returns in one run; a function that keeps state is
represented by different runtimes for different runs (`FlattenCompareRuns`).
-/

namespace flatten

/-! ## Data model -/

/-- A `reflect.Type`: a non-pointer type is identified by a name, a pointer
type by its element type. -/
inductive Ty where
  | named (name : String)
  | ptr (elem : Ty)
  deriving DecidableEq, Repr

/-- The built-in Go type `string` (the type of transformer fragments). -/
def Ty.string : Ty := .named "string"

/-- A Go value held in an `any`.

* `absent` is the nil interface.
* `nilRef`, `nilSeq`, `nilMap`, `nilOther` are typed nils (pointer, slice, map,
  channel or function).
* `str`, `bool`, `int`, `uint`, `float` are values whose kind is the
  corresponding primitive kind (`float` carries its IEEE-754 bit pattern).
* `other` is a non-nil value of any remaining kind (complex, channel, function,
  uintptr, ...), identified by a tag.
* `ref elem v` is a non-nil pointer of type `*elem` to a variable holding `v`.
  When the variable is of a concrete type, that type is `elem` and `v` is its
  value; when it is of an interface type, `v` is `iface w` with `w` the value
  the interface holds.
* `iface w` is a variable of interface type holding `w`: the kind
  `reflect.Interface`.  It only occurs as what a pointer points at, since an
  `any` never holds an interface.
* `seq` is an array or a non-nil slice with its elements in index order.
* `map` is a non-nil map; each entry is the text `fmt.Sprint` prints for the key
  together with the value `MapIndex` finds for it, in the order `MapKeys`
  enumerates them in one run; another run may enumerate them in another order.
  A map with a key that `MapIndex` does not find (a NaN), on which the code
  panics, has no representation.
* `struct` lists the fields in declaration order as
  `(name, exported, value)`. -/
inductive Value where
  | absent
  | nilRef (elem : Ty)
  | nilSeq (ty : Ty)
  | nilMap (ty : Ty)
  | nilOther (ty : Ty)
  | str (ty : Ty) (s : String)
  | bool (ty : Ty) (b : Bool)
  | int (ty : Ty) (i : Int)
  | uint (ty : Ty) (n : Nat)
  | float (ty : Ty) (bits : Nat)
  | other (ty : Ty) (tag : Nat)
  | ref (elem : Ty) (v : Value)
  | iface (v : Value)
  | seq (ty : Ty) (xs : List Value)
  | map (ty : Ty) (entries : List (String × Value))
  | struct (ty : Ty) (fields : List (String × Bool × Value))

/-- The result of `reflect.TypeOf`: `none` for the nil interface. -/
def typeOf : Value → Option Ty
  | .absent => none
  | .nilRef elem => some (.ptr elem)
  | .nilSeq ty => some ty
  | .nilMap ty => some ty
  | .nilOther ty => some ty
  | .str ty _ => some ty
  | .bool ty _ => some ty
  | .int ty _ => some ty
  | .uint ty _ => some ty
  | .float ty _ => some ty
  | .other ty _ => some ty
  | .ref elem _ => some (.ptr elem)
  | .iface _ => none
  | .seq ty _ => some ty
  | .map ty _ => some ty
  | .struct ty _ => some ty

/-- The value `reflect.Indirect(reflect.ValueOf(v))` of a non-nil `v`: the
pointee of a pointer, the value itself otherwise. -/
def indirect : Value → Value
  | .ref _ v => v
  | v => v

/-- The result of `reflect.Value.Interface`: the value itself, and for a
variable of interface type the value it holds. -/
def unbox : Value → Value
  | .iface v => v
  | v => v

/-- The type `Transformer` of `resolver.go`: `func(v any) []string`.  A function
of this type gives the fragments of one call.  A Go function that keeps state
may return other fragments in a later call; runs of `Flatten` that find such a
function in different states are runs with different runtimes. -/
abbrev Transformer := Value → List String

/-- What the code reads from outside its arguments: the package-level map
`transformers` and the two library renderers whose output is left abstract. -/
structure Runtime where
  /-- The map `transformers` of `resolver.go`. -/
  transformers : Ty → Option Transformer
  /-- The text `fmt.Sprintf("%v", ·)` prints. -/
  sprintV : Value → String
  /-- The text `strconv.FormatFloat(·, 'f', -1, 64)` prints for a bit pattern. -/
  formatFloat : Nat → String

/-- The struct `option` of `option.go`. -/
structure option where
  includes : List String
  excludes : List String
  deriving DecidableEq, Repr

/-- The type `Options` of `option.go`: `func(*option)`. -/
abbrev Options := option → option

/-! ## `option.go` -/

/-- The function `newOption`. -/
def newOption : option := { includes := [], excludes := [] }

/-- The function `WithIncludeFields`: appends every field not yet present. -/
def WithIncludeFields (fields : List String) : Options := fun opt =>
  fields.foldl
    (fun o field => if o.includes.contains field then o
      else { o with includes := o.includes ++ [field] })
    opt

/-- The function `WithExcludeFields`: appends every field not yet present. -/
def WithExcludeFields (fields : List String) : Options := fun opt =>
  fields.foldl
    (fun o field => if o.excludes.contains field then o
      else { o with excludes := o.excludes ++ [field] })
    opt

/-- The method `shouldSkip`. -/
def option.shouldSkip (opt : option) (field : String) : Bool :=
  if field ≠ "" then
    if (decide (opt.includes.length > 0) && !opt.includes.contains field) ||
        (decide (opt.excludes.length > 0) && opt.excludes.contains field) then
      true
    else
      false
  else
    false

/-! ## `util.go` -/

/-- The function `isNil`. -/
def isNil : Value → Bool
  | .absent => true
  | .nilRef _ => true
  | .nilSeq _ => true
  | .nilMap _ => true
  | .nilOther _ => true
  | _ => false

/-- The function `strconv.FormatBool`. -/
def FormatBool (b : Bool) : String := if b then "true" else "false"

/-- The function `strconv.FormatUint(·, 10)`. -/
def FormatUint (n : Nat) : String := Nat.repr n

/-- The function `strconv.FormatInt(·, 10)`. -/
def FormatInt : Int → String
  | .ofNat n => Nat.repr n
  | .negSucc n => "-" ++ Nat.repr (n + 1)

/-- The function `encode`.  The kind switch runs on
`reflect.Indirect(reflect.ValueOf(v))`; the case `reflect.Invalid` cannot be
reached once `isNil v` is false, so it has no counterpart here.  The default
case prints `rv.Interface()`. -/
def encode (rt : Runtime) (v : Value) : String :=
  if isNil v then "[null]"
  else
    match indirect v with
    | .str _ s => s
    | .bool _ b => FormatBool b
    | .int _ i => FormatInt i
    | .uint _ n => FormatUint n
    | .float _ bits => rt.formatFloat bits
    | w => rt.sprintV (unbox w)

/-- The function `path`. -/
def path (root key : String) : String :=
  if root ≠ "" ∧ key ≠ "" then root ++ "." ++ key
  else if root ≠ "" then root
  else if key ≠ "" then key
  else ""

/-- The function `flat`. -/
def flat (rt : Runtime) (key : String) (value : Value) (isArray : Bool) : String :=
  if isArray then key ++ ":[" ++ encode rt value ++ "]"
  else key ++ ":" ++ encode rt value

/-! ## `resolver.go` -/

/-- The function `resolve`: `none` stands for the result `(nil, false)`. -/
def resolve (rt : Runtime) (v : Value) : Option (List String) :=
  match v with
  | .absent => none
  | .nilRef _ => none
  | .ref elem w =>
    match rt.transformers elem with
    | some fn => some (fn (unbox w))
    | none => none
  | v =>
    match typeOf v with
    | some t =>
      match rt.transformers t with
      | some fn => some (fn v)
      | none => none
    | none => none

/-- The function `RegisterTransformer`.  The type parameter `T` is given by
`reflect.TypeOf` of its zero value, which is `none` when `T` is an interface
type; the registered function is stored under that type, replacing any earlier
one. -/
def RegisterTransformer (rt : Runtime) (t : Option Ty) (fn : Transformer) : Runtime :=
  match t with
  | none => rt
  | some ty =>
    { rt with transformers := fun k => if k = ty then some fn else rt.transformers k }

/-! ## `collect.go` -/

mutual
/-- The function `collect`.  The accumulator `*out` is passed in and the
extended accumulator is returned.  The last `match` is the switch on
`reflect.Indirect(reflect.ValueOf(inp)).Kind()`: a pointer to a nil slice or
a nil map is a slice or a map of length zero, and a pointer to a variable of
interface type (`.ref _ (.iface _)`) or to a pointer falls to the default
case. -/
def collect (rt : Runtime) (inp : Value) (pfx : String) (out : List String)
    (isArray : Bool) (opt : option) : List String :=
  if opt.shouldSkip pfx then out
  else if isNil inp then out ++ [flat rt pfx .absent isArray]
  else
    match resolve rt inp with
    | some res => out ++ res.map (fun item => flat rt pfx (.str .string item) isArray)
    | none =>
      match inp with
      | .seq _ xs => collectElems rt xs pfx out opt
      | .ref _ (.seq _ xs) => collectElems rt xs pfx out opt
      | .ref _ (.nilSeq _) => out
      | .map _ es => collectEntries rt es pfx out opt
      | .ref _ (.map _ es) => collectEntries rt es pfx out opt
      | .ref _ (.nilMap _) => out
      | .struct _ fs => collectFields rt fs pfx out opt
      | .ref _ (.struct _ fs) => collectFields rt fs pfx out opt
      | _ => out ++ [flat rt pfx inp isArray]
/-- The loop of `collect` over the elements of an array or slice. -/
def collectElems (rt : Runtime) (xs : List Value) (pfx : String) (out : List String)
    (opt : option) : List String :=
  match xs with
  | [] => out
  | x :: rest => collectElems rt rest pfx (collect rt x pfx out true opt) opt
/-- The loop of `collect` over the keys of a map. -/
def collectEntries (rt : Runtime) (es : List (String × Value)) (pfx : String)
    (out : List String) (opt : option) : List String :=
  match es with
  | [] => out
  | (k, x) :: rest =>
    collectEntries rt rest pfx (collect rt x (path pfx k) out false opt) opt
/-- The loop of `collect` over the fields of a struct. -/
def collectFields (rt : Runtime) (fs : List (String × Bool × Value)) (pfx : String)
    (out : List String) (opt : option) : List String :=
  match fs with
  | [] => out
  | (name, exported, x) :: rest =>
    if !exported then collectFields rt rest pfx out opt
    else collectFields rt rest pfx (collect rt x (path pfx name) out false opt) opt
end

/-! ## `flatten.go` -/

/-- The function `sort.Strings`: the list in ascending order.  Strings are
compared code point by code point, which is the order of their bytes
(`le_iff_utf8Bytes_le`). -/
def sortStrings (l : List String) : List String :=
  l.insertionSort (fun a b => a.toList ≤ b.toList)

/-- The option built by the first loop of `Flatten`. -/
def applyOptions (options : List Options) : option :=
  options.foldl (fun o f => f o) newOption

/-- The function `Flatten`. -/
def Flatten (rt : Runtime) (value : Value) (options : List Options) : List String :=
  sortStrings (collect rt value "" [] false (applyOptions options))

/-- The function `strings.Join`. -/
def Join (elems : List String) (sep : String) : String :=
  match elems with
  | [] => ""
  | e :: rest => rest.foldl (fun acc s => acc ++ sep ++ s) e

/-- The function `FlattenCompare`, its two calls of `Flatten` finding the same
runtime, as they do when the registered functions keep no state. -/
def FlattenCompare (rt : Runtime) (src dest : Value) (options : List Options) : Bool :=
  let source := Join (Flatten rt src options) "|"
  let destination := Join (Flatten rt dest options) "|"
  source == destination

/-- The function `FlattenCompare` in general: the call of `Flatten` on `src`
finds the runtime `first` and the later call on `dest` finds the runtime
`second`, which differs from `first` when a registered function has changed its
state in between. -/
def FlattenCompareRuns (first second : Runtime) (src dest : Value)
    (options : List Options) : Bool :=
  let source := Join (Flatten first src options) "|"
  let destination := Join (Flatten second dest options) "|"
  source == destination

/-- A runtime with an empty transformer registry. -/
def Runtime.bare : Runtime :=
  { transformers := fun _ => none, sprintV := fun _ => "?", formatFloat := fun _ => "?" }

/-! ## Auxiliary definitions for the proofs -/

/-- The switch of `collect` on the kind of the dereferenced input, reached
after the prune, nil and transformer steps. -/
def dispatch (rt : Runtime) (inp : Value) (pfx : String) (out : List String)
    (isArray : Bool) (opt : option) : List String :=
  match indirect inp with
  | .seq _ xs => collectElems rt xs pfx out opt
  | .nilSeq _ => out
  | .map _ es => collectEntries rt es pfx out opt
  | .nilMap _ => out
  | .struct _ fs => collectFields rt fs pfx out opt
  | _ => out ++ [flat rt pfx inp isArray]

/-- The values `collect` recurses into from `v` in its kind switch. -/
def children (v : Value) : List Value :=
  match indirect v with
  | .seq _ xs => xs
  | .map _ es => es.map (fun e => e.2)
  | .struct _ fs => fs.map (fun f => f.2.2)
  | _ => []

/-- The UTF-8 encoding of a code point, as Go stores it in a string. -/
def utf8EncodeChar (c : Char) : List Nat :=
  if c.toNat < 0x80 then [c.toNat]
  else if c.toNat < 0x800 then [0xC0 + c.toNat / 64, 0x80 + c.toNat % 64]
  else if c.toNat < 0x10000 then
    [0xE0 + c.toNat / 4096, 0x80 + c.toNat / 64 % 64, 0x80 + c.toNat % 64]
  else
    [0xF0 + c.toNat / 262144, 0x80 + c.toNat / 4096 % 64, 0x80 + c.toNat / 64 % 64,
      0x80 + c.toNat % 64]

/-- The bytes of a Go string holding the text `s`. -/
def utf8Bytes (s : String) : List Nat := s.toList.flatMap utf8EncodeChar

/-- Two lists that agree up to a position where the first has the smaller entry. -/
def Diverge (l₁ l₂ : List Nat) : Prop :=
  ∃ (p : List Nat) (x y : Nat) (s t : List Nat), l₁ = p ++ x :: s ∧ l₂ = p ++ y :: t ∧ x < y

/-- The transformer of the test `TestResolver`: for a record whose first field
is the string `name`, the single fragment made of `name:` and that string. -/
def nameFragment : Transformer := fun v =>
  match v with
  | .struct _ ((_, _, .str _ s) :: _) => ["name:" ++ s]
  | _ => []

/-- The relation between two lists of fields of one record type whose exported
fields hold the same values: names and visibility agree, hidden values are
free. -/
def SameExported (fs gs : List (String × Bool × Value)) : Prop :=
  List.Forall₂ (fun f g => f.1 = g.1 ∧ f.2.1 = g.2.1 ∧ (f.2.1 = true → f.2.2 = g.2.2)) fs gs

/-- The paths at and below the top-level name `g`: `g` itself and `g` followed by
a dot and more. -/
def Under (g p : String) : Prop := p = g ∨ ∃ s : String, p = g ++ "." ++ s

/-- The number written by a list of decimal digits. -/
def digitsValue (cs : List Char) : Nat :=
  cs.foldl (fun acc c => 10 * acc + (c.toNat - 48)) 0

/-- The entry of the integer `i` as an element of a sequence at the root. -/
def intEntry (i : Int) : String := ":[" ++ FormatInt i ++ "]"

/-- The primitive kinds: string, boolean, signed and unsigned integer, float. -/
def isPrimitive : Value → Bool
  | .str _ _ => true
  | .bool _ _ => true
  | .int _ _ => true
  | .uint _ _ => true
  | .float _ _ => true
  | _ => false

/-- No transformer is registered for the dynamic type of `v`. -/
def Unregistered (rt : Runtime) (v : Value) : Prop :=
  ∀ t, typeOf v = some t → rt.transformers t = none

/-- The kind of `v` is `reflect.Ptr` and `v` is not nil. -/
def isRef : Value → Bool
  | .ref _ _ => true
  | _ => false

/-- The relation between a value and the value obtained from it by one
replacement: a mapping by one with the same entries enumerated in another
order, or a record by one with the same fields declared in another order.  The
replaced value is one that `collect` reaches by traversal: the value itself, or
one behind one pointer to a variable of concrete type (a pointee that is neither
a pointer nor an `iface`; the element type of the pointer is the type of the
pointee), in an element of a sequence, in the value of a map entry or in a field
of a record.  A record with its fields in another
order is a value of another type, and so may be the values that enclose it,
hence the types are free on the right-hand side.  The predicate `ok` is
required of the replaced value and of every value that encloses it. -/
inductive ReorderWith (ok : Value → Value → Prop) : Value → Value → Prop where
  | map (ty : Ty) {es es' : List (String × Value)} :
      es.Perm es' → ok (.map ty es) (.map ty es') →
      ReorderWith ok (.map ty es) (.map ty es')
  | struct (ty ty' : Ty) {fs fs' : List (String × Bool × Value)} :
      fs.Perm fs' → ok (.struct ty fs) (.struct ty' fs') →
      ReorderWith ok (.struct ty fs) (.struct ty' fs')
  | inRef (e e' : Ty) {v w : Value} :
      ReorderWith ok v w → isRef v = false → typeOf v = some e → typeOf w = some e' →
      ok (.ref e v) (.ref e' w) →
      ReorderWith ok (.ref e v) (.ref e' w)
  | inSeq (ty ty' : Ty) (l₁ l₂ : List Value) {v w : Value} :
      ReorderWith ok v w → ok (.seq ty (l₁ ++ v :: l₂)) (.seq ty' (l₁ ++ w :: l₂)) →
      ReorderWith ok (.seq ty (l₁ ++ v :: l₂)) (.seq ty' (l₁ ++ w :: l₂))
  | inMap (ty ty' : Ty) (l₁ l₂ : List (String × Value)) (k : String) {v w : Value} :
      ReorderWith ok v w →
      ok (.map ty (l₁ ++ (k, v) :: l₂)) (.map ty' (l₁ ++ (k, w) :: l₂)) →
      ReorderWith ok (.map ty (l₁ ++ (k, v) :: l₂)) (.map ty' (l₁ ++ (k, w) :: l₂))
  | inStruct (ty ty' : Ty) (l₁ l₂ : List (String × Bool × Value)) (name : String)
      (exported : Bool) {v w : Value} :
      ReorderWith ok v w →
      ok (.struct ty (l₁ ++ (name, exported, v) :: l₂))
        (.struct ty' (l₁ ++ (name, exported, w) :: l₂)) →
      ReorderWith ok (.struct ty (l₁ ++ (name, exported, v) :: l₂))
        (.struct ty' (l₁ ++ (name, exported, w) :: l₂))

/-- The relation between two enumerations of one value: one map of the value,
reached as `collect` reaches it (behind one pointer to a variable of concrete
type, in an element of a sequence, in the value of a map entry or in a field of
a record), has its entries in another order.  The predicate `ok` is required of
the map and of every value that encloses it. -/
inductive MapStep (ok : Value → Value → Prop) : Value → Value → Prop where
  | map (ty : Ty) {es es' : List (String × Value)} :
      es.Perm es' → ok (.map ty es) (.map ty es') →
      MapStep ok (.map ty es) (.map ty es')
  | inRef (e : Ty) {v w : Value} :
      MapStep ok v w → isRef v = false → typeOf v = some e → typeOf w = some e →
      ok (.ref e v) (.ref e w) →
      MapStep ok (.ref e v) (.ref e w)
  | inSeq (ty : Ty) (l₁ l₂ : List Value) {v w : Value} :
      MapStep ok v w → ok (.seq ty (l₁ ++ v :: l₂)) (.seq ty (l₁ ++ w :: l₂)) →
      MapStep ok (.seq ty (l₁ ++ v :: l₂)) (.seq ty (l₁ ++ w :: l₂))
  | inMap (ty : Ty) (l₁ l₂ : List (String × Value)) (k : String) {v w : Value} :
      MapStep ok v w →
      ok (.map ty (l₁ ++ (k, v) :: l₂)) (.map ty (l₁ ++ (k, w) :: l₂)) →
      MapStep ok (.map ty (l₁ ++ (k, v) :: l₂)) (.map ty (l₁ ++ (k, w) :: l₂))
  | inStruct (ty : Ty) (l₁ l₂ : List (String × Bool × Value)) (name : String)
      (exported : Bool) {v w : Value} :
      MapStep ok v w →
      ok (.struct ty (l₁ ++ (name, exported, v) :: l₂))
        (.struct ty (l₁ ++ (name, exported, w) :: l₂)) →
      MapStep ok (.struct ty (l₁ ++ (name, exported, v) :: l₂))
        (.struct ty (l₁ ++ (name, exported, w) :: l₂))

/-- The runtime found by a run of `Flatten` when the function registered for
the type `C` is one that counts its calls and returns the count, and the count
it returns in that run is `n`. -/
def Runtime.counting (n : Nat) : Runtime :=
  RegisterTransformer Runtime.bare (some (.named "C")) (fun _ => [Nat.repr n])

/-- What `fmt` prints with the verb `%v` for a primitive. -/
def printPrimitive : Value → String
  | .str _ s => s
  | .bool _ b => FormatBool b
  | .int _ i => FormatInt i
  | .uint _ n => FormatUint n
  | _ => "?"

/-- What `fmt` prints with the verb `%v` for the values of the examples: a
primitive, and a record of primitives as the values of its fields between
braces, separated by blanks. -/
def printV : Value → String
  | .struct _ fs => "\x7b" ++ Join (fs.map (fun f => printPrimitive f.2.2)) " " ++ "\x7d"
  | v => printPrimitive v

/-- A runtime with an empty registry in which `fmt` prints as `printV`. -/
def Runtime.printing : Runtime := { Runtime.bare with sprintV := printV }

/-- A runtime in which one transformer is registered, for the type `T`. -/
def Runtime.withT : Runtime :=
  { Runtime.bare with
    transformers := fun t => if t = .named "T" then some (fun _ => ["x"]) else none }

/-- The property that `collect` on `v` only appends to its accumulator. -/
def Appends (rt : Runtime) (opt : option) (v : Value) : Prop :=
  ∀ (pfx : String) (out : List String) (isArray : Bool),
    collect rt v pfx out isArray opt = out ++ collect rt v pfx [] isArray opt

/-! ## Unfolding and induction -/

/-- The function `collect` unfolds to the four steps of its body. -/
theorem collect_eq (rt : Runtime) (inp : Value) (pfx : String) (out : List String)
    (isArray : Bool) (opt : option) :
    collect rt inp pfx out isArray opt =
      if opt.shouldSkip pfx then out
      else if isNil inp then out ++ [flat rt pfx .absent isArray]
      else
        match resolve rt inp with
        | some res => out ++ res.map (fun item => flat rt pfx (.str .string item) isArray)
        | none => dispatch rt inp pfx out isArray opt := by
  cases inp with
  | ref e w => cases w <;> simp [collect, dispatch, indirect, isNil]
  | _ => simp [collect, dispatch, indirect, isNil]

mutual
theorem Value.induction_aux {P : Value → Prop}
    (h : ∀ v, (∀ c ∈ children v, P c) → P v) : ∀ v, P v
  | .absent => h _ (by simp [children, indirect])
  | .nilRef _ => h _ (by simp [children, indirect])
  | .nilSeq _ => h _ (by simp [children, indirect])
  | .nilMap _ => h _ (by simp [children, indirect])
  | .nilOther _ => h _ (by simp [children, indirect])
  | .str _ _ => h _ (by simp [children, indirect])
  | .bool _ _ => h _ (by simp [children, indirect])
  | .int _ _ => h _ (by simp [children, indirect])
  | .uint _ _ => h _ (by simp [children, indirect])
  | .float _ _ => h _ (by simp [children, indirect])
  | .other _ _ => h _ (by simp [children, indirect])
  | .iface _ => h _ (by simp [children, indirect])
  | .ref _ (.absent) => h _ (by simp [children, indirect])
  | .ref _ (.nilRef _) => h _ (by simp [children, indirect])
  | .ref _ (.nilSeq _) => h _ (by simp [children, indirect])
  | .ref _ (.nilMap _) => h _ (by simp [children, indirect])
  | .ref _ (.nilOther _) => h _ (by simp [children, indirect])
  | .ref _ (.str _ _) => h _ (by simp [children, indirect])
  | .ref _ (.bool _ _) => h _ (by simp [children, indirect])
  | .ref _ (.int _ _) => h _ (by simp [children, indirect])
  | .ref _ (.uint _ _) => h _ (by simp [children, indirect])
  | .ref _ (.float _ _) => h _ (by simp [children, indirect])
  | .ref _ (.other _ _) => h _ (by simp [children, indirect])
  | .ref _ (.iface _) => h _ (by simp [children, indirect])
  | .ref _ (.ref _ _) => h _ (by simp [children, indirect])
  | .seq _ xs => h _ (Value.induction_elems h xs)
  | .ref _ (.seq _ xs) => h _ (Value.induction_elems h xs)
  | .map _ es =>
    h _ (by
      intro c hc
      simp only [children, indirect, List.mem_map] at hc
      obtain ⟨e, he, rfl⟩ := hc
      exact Value.induction_entries h _ e he)
  | .ref _ (.map _ es) =>
    h _ (by
      intro c hc
      simp only [children, indirect, List.mem_map] at hc
      obtain ⟨e, he, rfl⟩ := hc
      exact Value.induction_entries h _ e he)
  | .struct _ fs =>
    h _ (by
      intro c hc
      simp only [children, indirect, List.mem_map] at hc
      obtain ⟨e, he, rfl⟩ := hc
      exact Value.induction_fields h _ e he)
  | .ref _ (.struct _ fs) =>
    h _ (by
      intro c hc
      simp only [children, indirect, List.mem_map] at hc
      obtain ⟨e, he, rfl⟩ := hc
      exact Value.induction_fields h _ e he)
theorem Value.induction_elems {P : Value → Prop}
    (h : ∀ v, (∀ c ∈ children v, P c) → P v) :
    ∀ (l : List Value), ∀ e ∈ l, P e
  | [] => by simp
  | x :: rest => by
    intro c hc
    rcases List.mem_cons.1 hc with hx | hc
    · rw [hx]; exact Value.induction_aux h x
    · exact Value.induction_elems h rest c hc
theorem Value.induction_entries {P : Value → Prop}
    (h : ∀ v, (∀ c ∈ children v, P c) → P v) :
    ∀ (l : List (String × Value)), ∀ e ∈ l, P e.2
  | [] => by simp
  | (_, x) :: rest => by
    intro c hc
    rcases List.mem_cons.1 hc with hx | hc
    · rw [hx]; exact Value.induction_aux h x
    · exact Value.induction_entries h rest c hc
theorem Value.induction_fields {P : Value → Prop}
    (h : ∀ v, (∀ c ∈ children v, P c) → P v) :
    ∀ (l : List (String × Bool × Value)), ∀ e ∈ l, P e.2.2
  | [] => by simp
  | (_, _, x) :: rest => by
    intro c hc
    rcases List.mem_cons.1 hc with hx | hc
    · rw [hx]; exact Value.induction_aux h x
    · exact Value.induction_fields h rest c hc
end

/-- Induction on values along the recursion of `collect`. -/
theorem Value.induction {P : Value → Prop} (h : ∀ v, (∀ c ∈ children v, P c) → P v)
    (v : Value) : P v :=
  Value.induction_aux h v

/-! ## The accumulator is only appended to -/

theorem collectElems_of_appends (rt : Runtime) (opt : option) (pfx : String) :
    ∀ (xs : List Value), (∀ x ∈ xs, Appends rt opt x) → ∀ (out : List String),
      collectElems rt xs pfx out opt =
        out ++ xs.flatMap (fun x => collect rt x pfx [] true opt)
  | [], _, out => by simp [collectElems]
  | x :: rest, hx, out => by
    simp only [collectElems, List.flatMap_cons]
    rw [collectElems_of_appends rt opt pfx rest (fun y hy => hx y (List.mem_cons_of_mem _ hy)),
      hx x (List.mem_cons_self _ _) pfx out true, List.append_assoc]

theorem collectEntries_of_appends (rt : Runtime) (opt : option) (pfx : String) :
    ∀ (es : List (String × Value)), (∀ e ∈ es, Appends rt opt e.2) → ∀ (out : List String),
      collectEntries rt es pfx out opt =
        out ++ es.flatMap (fun e => collect rt e.2 (path pfx e.1) [] false opt)
  | [], _, out => by simp [collectEntries]
  | (k, x) :: rest, hx, out => by
    simp only [collectEntries, List.flatMap_cons]
    rw [collectEntries_of_appends rt opt pfx rest
        (fun y hy => hx y (List.mem_cons_of_mem _ hy)),
      hx (k, x) (List.mem_cons_self _ _) (path pfx k) out false, List.append_assoc]

theorem collectFields_of_appends (rt : Runtime) (opt : option) (pfx : String) :
    ∀ (fs : List (String × Bool × Value)), (∀ f ∈ fs, Appends rt opt f.2.2) →
      ∀ (out : List String),
      collectFields rt fs pfx out opt =
        out ++ fs.flatMap (fun f =>
          if f.2.1 then collect rt f.2.2 (path pfx f.1) [] false opt else [])
  | [], _, out => by simp [collectFields]
  | (name, exported, x) :: rest, hx, out => by
    have ih := collectFields_of_appends rt opt pfx rest
      (fun y hy => hx y (List.mem_cons_of_mem _ hy))
    cases exported with
    | false => simp [collectFields, ih]
    | true =>
      simp only [collectFields, List.flatMap_cons, Bool.not_true, Bool.false_eq_true,
        if_false, if_true]
      rw [ih, hx (name, true, x) (List.mem_cons_self _ _) (path pfx name) out false,
        List.append_assoc]

theorem dispatch_of_appends (rt : Runtime) (opt : option) (v : Value)
    (h : ∀ c ∈ children v, Appends rt opt c) (pfx : String) (out : List String)
    (isArray : Bool) :
    dispatch rt v pfx out isArray opt = out ++ dispatch rt v pfx [] isArray opt := by
  unfold dispatch
  unfold children at h
  split
  · rename_i xs hxs
    have h2 : ∀ x ∈ xs, Appends rt opt x := by
      intro x hx
      apply h
      rw [hxs]
      exact hx
    rw [collectElems_of_appends rt opt pfx _ h2, collectElems_of_appends rt opt pfx _ h2 []]
    simp
  · simp
  · rename_i es hes
    have h2 : ∀ e ∈ es, Appends rt opt e.2 := by
      intro e he
      apply h
      rw [hes]
      exact List.mem_map_of_mem _ he
    rw [collectEntries_of_appends rt opt pfx _ h2,
      collectEntries_of_appends rt opt pfx _ h2 []]
    simp
  · simp
  · rename_i fs hfs
    have h2 : ∀ f ∈ fs, Appends rt opt f.2.2 := by
      intro f hf
      apply h
      rw [hfs]
      exact List.mem_map_of_mem _ hf
    rw [collectFields_of_appends rt opt pfx _ h2,
      collectFields_of_appends rt opt pfx _ h2 []]
    simp
  · simp

/-- The function `collect` returns its accumulator followed by the entries
it emits. -/
theorem collect_appends (rt : Runtime) (opt : option) (v : Value) : Appends rt opt v := by
  induction v using Value.induction with
  | h v ih =>
    intro pfx out isArray
    rw [collect_eq, collect_eq rt v pfx []]
    split
    · simp
    · split
      · simp
      · split
        · simp
        · exact dispatch_of_appends rt opt v ih pfx out isArray

theorem collectElems_eq (rt : Runtime) (opt : option) (pfx : String) (xs : List Value)
    (out : List String) :
    collectElems rt xs pfx out opt =
      out ++ xs.flatMap (fun x => collect rt x pfx [] true opt) :=
  collectElems_of_appends rt opt pfx xs (fun x _ => collect_appends rt opt x) out

theorem collectEntries_eq (rt : Runtime) (opt : option) (pfx : String)
    (es : List (String × Value)) (out : List String) :
    collectEntries rt es pfx out opt =
      out ++ es.flatMap (fun e => collect rt e.2 (path pfx e.1) [] false opt) :=
  collectEntries_of_appends rt opt pfx es (fun e _ => collect_appends rt opt e.2) out

theorem collectFields_eq (rt : Runtime) (opt : option) (pfx : String)
    (fs : List (String × Bool × Value)) (out : List String) :
    collectFields rt fs pfx out opt =
      out ++ fs.flatMap (fun f =>
        if f.2.1 then collect rt f.2.2 (path pfx f.1) [] false opt else []) :=
  collectFields_of_appends rt opt pfx fs (fun f _ => collect_appends rt opt f.2.2) out

/-! ## Sorting -/

theorem sortStrings_perm (l : List String) : (sortStrings l).Perm l :=
  List.perm_insertionSort _ l

theorem sortStrings_sorted (l : List String) :
    List.Sorted (fun a b : String => a ≤ b) (sortStrings l) := by
  have htotal : IsTotal String (fun a b => a.toList ≤ b.toList) :=
    ⟨fun a b => by
      rcases le_total a b with h | h
      · exact Or.inl (String.le_iff_toList_le.1 h)
      · exact Or.inr (String.le_iff_toList_le.1 h)⟩
  have htrans : IsTrans String (fun a b => a.toList ≤ b.toList) :=
    ⟨fun a b c hab hbc =>
      String.le_iff_toList_le.1
        (le_trans (String.le_iff_toList_le.2 hab) (String.le_iff_toList_le.2 hbc))⟩
  have h := List.sorted_insertionSort (fun a b : String => a.toList ≤ b.toList) l
  exact List.Pairwise.imp (fun hab => String.le_iff_toList_le.2 hab) h

/-! ### The order of strings is the order of their bytes -/

theorem Char.toNat_lt_of_lt {c d : Char} (h : c < d) : c.toNat < d.toNat := h

theorem Char.toNat_bound (c : Char) : c.toNat < 0x110000 := by
  rcases c.valid with h | h
  · exact lt_trans h (by decide)
  · exact h.2

theorem Diverge.head {x y : Nat} (s t : List Nat) (h : x < y) : Diverge (x :: s) (y :: t) :=
  ⟨[], x, y, s, t, rfl, rfl, h⟩

theorem Diverge.cons (a : Nat) {l₁ l₂ : List Nat} (h : Diverge l₁ l₂) :
    Diverge (a :: l₁) (a :: l₂) := by
  obtain ⟨p, x, y, s, t, h1, h2, hxy⟩ := h
  exact ⟨a :: p, x, y, s, t, by simp [h1], by simp [h2], hxy⟩

theorem Diverge.two {a₁ a₂ b₁ b₂ : Nat} (h : a₁ < b₁ ∨ (a₁ = b₁ ∧ a₂ < b₂)) :
    Diverge [a₁, a₂] [b₁, b₂] := by
  rcases h with h | ⟨rfl, h⟩
  · exact Diverge.head _ _ h
  · exact (Diverge.head _ _ h).cons _

theorem Diverge.three {a₁ a₂ a₃ b₁ b₂ b₃ : Nat}
    (h : a₁ < b₁ ∨ (a₁ = b₁ ∧ (a₂ < b₂ ∨ (a₂ = b₂ ∧ a₃ < b₃)))) :
    Diverge [a₁, a₂, a₃] [b₁, b₂, b₃] := by
  rcases h with h | ⟨rfl, h⟩
  · exact Diverge.head _ _ h
  · exact (Diverge.two h).cons _

theorem Diverge.four {a₁ a₂ a₃ a₄ b₁ b₂ b₃ b₄ : Nat}
    (h : a₁ < b₁ ∨ (a₁ = b₁ ∧ (a₂ < b₂ ∨ (a₂ = b₂ ∧ (a₃ < b₃ ∨ (a₃ = b₃ ∧ a₄ < b₄)))))) :
    Diverge [a₁, a₂, a₃, a₄] [b₁, b₂, b₃, b₄] := by
  rcases h with h | ⟨rfl, h⟩
  · exact Diverge.head _ _ h
  · exact (Diverge.three h).cons _

theorem utf8EncodeChar_diverge {c d : Char} (h : c < d) :
    Diverge (utf8EncodeChar c) (utf8EncodeChar d) := by
  have hlt : c.toNat < d.toNat := Char.toNat_lt_of_lt h
  have hd := Char.toNat_bound d
  unfold utf8EncodeChar
  generalize c.toNat = n at *
  generalize d.toNat = m at *
  split_ifs <;>
    first
    | (exfalso; omega)
    | (apply Diverge.head; omega)
    | (apply Diverge.two; omega)
    | (apply Diverge.three; omega)
    | (apply Diverge.four; omega)

theorem utf8EncodeChar_ne_nil (c : Char) : utf8EncodeChar c ≠ [] := by
  unfold utf8EncodeChar
  split_ifs <;> simp

theorem lex_of_diverge {l₁ l₂ : List Nat} (h : Diverge l₁ l₂) (r₁ r₂ : List Nat) :
    List.Lex (· < ·) (l₁ ++ r₁) (l₂ ++ r₂) := by
  obtain ⟨p, x, y, s, t, h1, h2, hxy⟩ := h
  rw [h1, h2, List.append_assoc, List.append_assoc]
  exact List.Lex.append_left _ (List.Lex.rel hxy) p

theorem utf8_flatMap_lex {cs ds : List Char} (h : List.Lex (· < ·) cs ds) :
    List.Lex (· < ·) (cs.flatMap utf8EncodeChar) (ds.flatMap utf8EncodeChar) := by
  induction h with
  | nil =>
    rename_i d ds
    rw [List.flatMap_cons]
    cases hd : utf8EncodeChar d with
    | nil => exact absurd hd (utf8EncodeChar_ne_nil d)
    | cons b bs => exact List.Lex.nil
  | cons _ ih =>
    rw [List.flatMap_cons, List.flatMap_cons]
    exact List.Lex.append_left _ ih _
  | rel hcd =>
    rw [List.flatMap_cons, List.flatMap_cons]
    exact lex_of_diverge (utf8EncodeChar_diverge hcd) _ _

theorem utf8Bytes_strictMono : StrictMono utf8Bytes := by
  intro a b hab
  have h1 : List.Lex (· < ·) a.toList b.toList := String.lt_iff_toList_lt.1 hab
  exact utf8_flatMap_lex h1

/-- The order of strings is the order of their bytes. -/
theorem le_iff_utf8Bytes_le (a b : String) : a ≤ b ↔ utf8Bytes a ≤ utf8Bytes b :=
  (utf8Bytes_strictMono.le_iff_le).symm

/-- The result of `sortStrings` ascends in the byte-wise order of Go strings. -/
theorem sortStrings_sorted_bytes (l : List String) :
    List.Sorted (fun a b : String => utf8Bytes a ≤ utf8Bytes b) (sortStrings l) :=
  List.Pairwise.imp (fun hab => (le_iff_utf8Bytes_le _ _).1 hab) (sortStrings_sorted l)

theorem shouldSkip_empty (opt : option) : opt.shouldSkip "" = false := by
  simp [option.shouldSkip]

/-! ## Claims -/

/-- C1: for every value, list of options and registry state, the list returned
by `Flatten` ascends in the byte-wise order of strings and is a permutation of
what `collect` appended to the empty accumulator from path `""` with
`isArray = false`: sorting drops, adds and merges nothing. -/
theorem Flatten_sorted_perm (rt : Runtime) (value : Value) (options : List Options) :
    List.Sorted (fun a b : String => utf8Bytes a ≤ utf8Bytes b) (Flatten rt value options) ∧
      (Flatten rt value options).Perm
        (collect rt value "" [] false (applyOptions options)) :=
  ⟨sortStrings_sorted_bytes _, sortStrings_perm _⟩

theorem sortStrings_singleton (a : String) : sortStrings [a] = [a] := by
  simp [sortStrings]

/-- C2: a string, boolean, signed or unsigned integer whose type has no
registered transformer flattens, under every list of options, to the single
entry made of the empty root path, a colon and its encoding; the encoding is
the string itself, `true`/`false`, or the decimal digits; the root path is
never pruned. -/
theorem Flatten_primitive (rt : Runtime) (options : List Options) (ty : Ty)
    (h : rt.transformers ty = none) :
    (∀ s : String, encode rt (.str ty s) = s ∧
        Flatten rt (.str ty s) options = [":" ++ s]) ∧
    (∀ b : Bool, encode rt (.bool ty b) = (if b then "true" else "false") ∧
        Flatten rt (.bool ty b) options = [":" ++ (if b then "true" else "false")]) ∧
    (∀ i : Int, encode rt (.int ty i) = toString i ∧
        Flatten rt (.int ty i) options = [":" ++ toString i]) ∧
    (∀ n : Nat, encode rt (.uint ty n) = toString n ∧
        Flatten rt (.uint ty n) options = [":" ++ toString n]) ∧
    (applyOptions options).shouldSkip "" = false := by
  refine ⟨fun s => ⟨rfl, ?_⟩, fun b => ⟨rfl, ?_⟩, fun i => ⟨?_, ?_⟩, fun n => ⟨rfl, ?_⟩,
    shouldSkip_empty _⟩
  · simp [Flatten, collect_eq, shouldSkip_empty, isNil, resolve, typeOf, h, dispatch,
      indirect, flat, encode, sortStrings_singleton]
  · simp [Flatten, collect_eq, shouldSkip_empty, isNil, resolve, typeOf, h, dispatch,
      indirect, flat, encode, sortStrings_singleton, FormatBool]
  · cases i <;> rfl
  · have hi : FormatInt i = toString i := by cases i <;> rfl
    simp [Flatten, collect_eq, shouldSkip_empty, isNil, resolve, typeOf, h, dispatch,
      indirect, flat, encode, sortStrings_singleton, hi]
  · have hn : FormatUint n = toString n := rfl
    simp [Flatten, collect_eq, shouldSkip_empty, isNil, resolve, typeOf, h, dispatch,
      indirect, flat, encode, sortStrings_singleton, hn]

/-- C2 at the inputs of the repository's tests: `"hello"`, `42` and `true`, also
under an include and an exclude filter. -/
theorem Flatten_primitive_witness :
    Runtime.bare.transformers (.named "T") = none ∧
      Flatten Runtime.bare (.str (.named "T") "hello")
        [WithIncludeFields ["Name"], WithExcludeFields ["Email"]] = [":hello"] ∧
      Flatten Runtime.bare (.int (.named "T") 42) [] = [":42"] ∧
      Flatten Runtime.bare (.bool (.named "T") true) [] = [":true"] :=
  ⟨rfl,
    ((Flatten_primitive Runtime.bare
      [WithIncludeFields ["Name"], WithExcludeFields ["Email"]] (.named "T") rfl).1
        "hello").2,
    ((Flatten_primitive Runtime.bare [] (.named "T") rfl).2.2.1 42).2,
    ((Flatten_primitive Runtime.bare [] (.named "T") rfl).2.1 true).2⟩

/-- C3: whichever nil state the root value is in (nil interface, nil pointer,
nil slice, nil map), `Flatten` returns the single entry `:[null]`, for every list
of options and every registry state. -/
theorem Flatten_nil (rt : Runtime) (options : List Options) (elem ty : Ty) :
    Flatten rt .absent options = [":[null]"] ∧
      Flatten rt (.nilRef elem) options = [":[null]"] ∧
      Flatten rt (.nilSeq ty) options = [":[null]"] ∧
      Flatten rt (.nilMap ty) options = [":[null]"] := by
  refine ⟨?_, ?_, ?_, ?_⟩ <;>
    simp [Flatten, collect_eq, shouldSkip_empty, isNil, flat, encode, sortStrings_singleton]

/-- What `collect` does at a nil value: one entry, with the encoding `[null]`
of `nil` wrapped in a further pair of brackets when `isArray` is set. -/
theorem collect_nil (rt : Runtime) (v : Value) (hnil : isNil v = true) (pfx : String)
    (out : List String) (isArray : Bool) (opt : option) (hskip : opt.shouldSkip pfx = false) :
    collect rt v pfx out isArray opt =
      out ++ [if isArray then pfx ++ ":[[null]]" else pfx ++ ":[null]"] := by
  rw [collect_eq, if_neg (by simp [hskip]), if_pos hnil]
  cases isArray <;> simp [flat, encode, isNil, String.append_assoc]

/-- C4, as the code behaves: at a nil value (nil interface, nil pointer, nil
slice, nil map) and a path that is not skipped, `collect` appends exactly one
entry and nothing else; the entry is `path:[[null]]` when `isArray` is true
and `path:[null]` when it is false. -/
theorem collect_nil_entry (rt : Runtime) (v : Value) (pfx : String) (out : List String)
    (opt : option) (hnil : v = .absent ∨ (∃ e, v = .nilRef e) ∨ (∃ t, v = .nilSeq t) ∨
      (∃ t, v = .nilMap t))
    (hskip : opt.shouldSkip pfx = false) :
    collect rt v pfx out true opt = out ++ [pfx ++ ":[[null]]"] ∧
      collect rt v pfx out false opt = out ++ [pfx ++ ":[null]"] := by
  have h : isNil v = true := by
    rcases hnil with h | ⟨e, h⟩ | ⟨t, h⟩ | ⟨t, h⟩ <;> subst h <;> rfl
  exact ⟨by simpa using collect_nil rt v h pfx out true opt hskip,
    by simpa using collect_nil rt v h pfx out false opt hskip⟩

/-- C4 at a nil pointer under the path `F`, after one earlier entry. -/
theorem collect_nil_entry_witness :
    collect Runtime.bare (.nilRef (.named "T")) "F" ["E:1"] true newOption =
        ["E:1", "F:[[null]]"] ∧
      collect Runtime.bare (.nilRef (.named "T")) "F" ["E:1"] false newOption =
        ["E:1", "F:[null]"] :=
  collect_nil_entry Runtime.bare (.nilRef (.named "T")) "F" ["E:1"] newOption
    (Or.inr (Or.inl ⟨_, rfl⟩)) (by decide)

/-- C4 as stated fails: at a nil value under path `F` the entry is not `F:null`
when `isArray` is false, nor `F:[null]` when it is true, and a nil element of a
sequence at the root flattens to `:[[null]]`, not to `:[null]`. -/
theorem collect_nil_entry_counterexample :
    collect Runtime.bare .absent "F" [] false newOption ≠ ["F" ++ ":null"] ∧
      collect Runtime.bare .absent "F" [] true newOption ≠ ["F" ++ ":[null]"] ∧
      Flatten Runtime.bare (.seq (.named "[]any") [.absent]) [] = [":[[null]]"] := by
  decide

/-! ## Terminals and containers of primitives -/

theorem resolve_of_unregistered (rt : Runtime) (v : Value) (hp : isPrimitive v = true)
    (hu : Unregistered rt v) : resolve rt v = none := by
  cases v <;> simp [isPrimitive] at hp <;> simp [resolve, typeOf, hu _ rfl]

/-- A primitive without transformer, at a path that is not skipped, yields the
single entry built by `flat`. -/
theorem collect_primitive (rt : Runtime) (v : Value) (hp : isPrimitive v = true)
    (hu : Unregistered rt v) (pfx : String) (out : List String) (isArray : Bool)
    (opt : option) (hskip : opt.shouldSkip pfx = false) :
    collect rt v pfx out isArray opt = out ++ [flat rt pfx v isArray] := by
  rw [collect_eq, if_neg (by simp [hskip]), resolve_of_unregistered rt v hp hu]
  cases v <;> simp [isPrimitive] at hp <;> simp [isNil, dispatch, indirect]

theorem String.empty_append_eq (s : String) : "" ++ s = s := by
  apply String.ext
  simp

/-- C5: a non-nil sequence of primitives, with no transformer registered for
the sequence type nor for the element types, flattens under every list of
options to the sorted list of the entries `:[e]`, one per element `x` with
`e = encode x`, duplicates kept; the result is as long as the sequence. -/
theorem Flatten_seq_primitives (rt : Runtime) (options : List Options) (ty : Ty)
    (xs : List Value) (hty : rt.transformers ty = none)
    (hxs : ∀ x ∈ xs, isPrimitive x = true ∧ Unregistered rt x) :
    Flatten rt (.seq ty xs) options =
        sortStrings (xs.map (fun x => ":[" ++ encode rt x ++ "]")) ∧
      (Flatten rt (.seq ty xs) options).length = xs.length := by
  have hc : collect rt (.seq ty xs) "" [] false (applyOptions options) =
      xs.map (fun x => ":[" ++ encode rt x ++ "]") := by
    rw [collect_eq, if_neg (by simp [shouldSkip_empty])]
    simp only [isNil, resolve, typeOf, hty, dispatch, indirect, collectElems_eq]
    simp only [Bool.false_eq_true, if_false, List.nil_append]
    induction xs with
    | nil => rfl
    | cons x rest ih =>
      rw [List.flatMap_cons, List.map_cons, ih (fun y hy => hxs y (List.mem_cons_of_mem _ hy)),
        collect_primitive rt x (hxs x (List.mem_cons_self _ _)).1
          (hxs x (List.mem_cons_self _ _)).2 "" [] true _ (shouldSkip_empty _)]
      simp [flat, String.empty_append_eq]
  have hf : Flatten rt (.seq ty xs) options =
      sortStrings (xs.map (fun x => ":[" ++ encode rt x ++ "]")) := by
    rw [Flatten, hc]
  refine ⟨hf, ?_⟩
  rw [hf, (sortStrings_perm _).length_eq, List.length_map]

/-- C5 at the sequence `[3, 1, 1]` of integers: three entries, sorted, with the
duplicate kept. -/
theorem Flatten_seq_primitives_witness :
    Flatten Runtime.bare (.seq (.named "[]int")
        [.int (.named "int") 3, .int (.named "int") 1, .int (.named "int") 1]) [] =
      [":[1]", ":[1]", ":[3]"] := by
  have h := (Flatten_seq_primitives Runtime.bare [] (.named "[]int")
    [.int (.named "int") 3, .int (.named "int") 1, .int (.named "int") 1] rfl
    (by
      intro x hx
      simp only [List.mem_cons, List.mem_singleton, List.not_mem_nil, or_false] at hx
      rcases hx with h | h | h <;> subst h <;> exact ⟨rfl, fun _ _ => rfl⟩)).1
  rw [h]
  decide

theorem path_empty_left (key : String) : path "" key = key := by
  by_cases h : key = "" <;> simp [path, h]

theorem shouldSkip_eq_false_iff (opt : option) (field : String) (h : field ≠ "") :
    opt.shouldSkip field = false ↔
      (opt.includes = [] ∨ field ∈ opt.includes) ∧ field ∉ opt.excludes := by
  have hlen : ∀ l : List String, field ∈ l → 0 < l.length :=
    fun l hl => List.length_pos_of_mem hl
  by_cases hi : opt.includes = [] <;> by_cases hm : field ∈ opt.includes <;>
    by_cases he : field ∈ opt.excludes <;>
    simp_all [option.shouldSkip, List.length_pos]

theorem collect_skipped (rt : Runtime) (v : Value) (pfx : String) (out : List String)
    (isArray : Bool) (opt : option) (hskip : opt.shouldSkip pfx = true) :
    collect rt v pfx out isArray opt = out := by
  rw [collect_eq, if_pos hskip]

/-- C6: a record whose fields are all exported, have non-empty names and hold
primitives, with no transformer registered for the record type nor for the
field types, flattens under every list of options to the sorted list of the
entries `name:e` (with `e = encode v`) of exactly the fields `(name, v)` such
that the include list is empty or contains `name`, and the exclude list does
not contain `name`. -/
theorem Flatten_record_primitives (rt : Runtime) (options : List Options) (ty : Ty)
    (fs : List (String × Bool × Value)) (hty : rt.transformers ty = none)
    (hfs : ∀ f ∈ fs, f.2.1 = true ∧ f.1 ≠ "" ∧ isPrimitive f.2.2 = true ∧
      Unregistered rt f.2.2) :
    Flatten rt (.struct ty fs) options =
      sortStrings
        ((fs.filter (fun f =>
            decide (((applyOptions options).includes = [] ∨
                f.1 ∈ (applyOptions options).includes) ∧
              f.1 ∉ (applyOptions options).excludes))).map
          (fun f => f.1 ++ ":" ++ encode rt f.2.2)) := by
  rw [Flatten]
  congr 1
  rw [collect_eq, if_neg (by simp [shouldSkip_empty])]
  simp only [isNil, resolve, typeOf, hty, dispatch, indirect, collectFields_eq]
  simp only [Bool.false_eq_true, if_false, List.nil_append]
  induction fs with
  | nil => rfl
  | cons f rest ih =>
    obtain ⟨hexp, hname, hprim, hunreg⟩ := hfs f (List.mem_cons_self _ _)
    rw [List.flatMap_cons, ih (fun y hy => hfs y (List.mem_cons_of_mem _ hy)),
      List.filter_cons, hexp, if_pos rfl, path_empty_left]
    cases hs : (applyOptions options).shouldSkip f.1 with
    | true =>
      have hn : ¬ (((applyOptions options).includes = [] ∨
          f.1 ∈ (applyOptions options).includes) ∧
          f.1 ∉ (applyOptions options).excludes) := by
        intro hc
        rw [(shouldSkip_eq_false_iff _ _ hname).2 hc] at hs
        exact Bool.noConfusion hs
      rw [collect_skipped rt _ _ _ _ _ hs, if_neg (by simpa using hn)]
      rfl
    | false =>
      have hy := (shouldSkip_eq_false_iff _ _ hname).1 hs
      rw [collect_primitive rt _ hprim hunreg _ _ _ _ hs, if_pos (by simpa using hy)]
      simp [flat]

/-- C6 at the record `{ID: 1, Name: "Alice", Email: "alice@example.com"}` of the
repository's tests, with `WithIncludeFields("Name")` and with
`WithExcludeFields("Email")`. -/
theorem Flatten_record_primitives_witness :
    Flatten Runtime.bare
        (.struct (.named "User")
          [("ID", true, .int (.named "int") 1),
            ("Name", true, .str (.named "string") "Alice"),
            ("Email", true, .str (.named "string") "alice@example.com")])
        [WithIncludeFields ["Name"]] =
      ["Name:Alice"] ∧
    Flatten Runtime.bare
        (.struct (.named "User")
          [("ID", true, .int (.named "int") 1),
            ("Name", true, .str (.named "string") "Alice"),
            ("Email", true, .str (.named "string") "alice@example.com")])
        [WithExcludeFields ["Email"]] =
      ["ID:1", "Name:Alice"] := by
  have hfs : ∀ f ∈ [("ID", true, Value.int (.named "int") 1),
      ("Name", true, Value.str (.named "string") "Alice"),
      ("Email", true, Value.str (.named "string") "alice@example.com")],
      f.2.1 = true ∧ f.1 ≠ "" ∧ isPrimitive f.2.2 = true ∧ Unregistered Runtime.bare f.2.2 := by
    intro f hf
    simp only [List.mem_cons, List.mem_singleton, List.not_mem_nil, or_false] at hf
    rcases hf with h | h | h <;> subst h <;>
      exact ⟨rfl, by decide, rfl, fun _ _ => rfl⟩
  constructor
  · rw [Flatten_record_primitives Runtime.bare [WithIncludeFields ["Name"]]
      (.named "User") _ rfl hfs]
    decide
  · rw [Flatten_record_primitives Runtime.bare [WithExcludeFields ["Email"]]
      (.named "User") _ rfl hfs]
    decide

/-- C7: at a non-nil mapping or record whose type has no registered
transformer, for every path, accumulator and option, `collect` returns the same
accumulator whether it is entered with `isArray` true or false: the recursion
into entries and fields passes `false`. -/
theorem collect_container_isArray (rt : Runtime) (ty : Ty) (pfx : String)
    (out : List String) (opt : option) (hty : rt.transformers ty = none) :
    (∀ es : List (String × Value),
        collect rt (.map ty es) pfx out true opt =
          collect rt (.map ty es) pfx out false opt) ∧
      (∀ fs : List (String × Bool × Value),
        collect rt (.struct ty fs) pfx out true opt =
          collect rt (.struct ty fs) pfx out false opt) := by
  constructor <;> intro l <;> rw [collect_eq, collect_eq rt _ pfx out false] <;>
    simp [isNil, resolve, typeOf, hty, dispatch, indirect]

/-- C7 at the sequence of records of the repository's tests: the entries of a
record reached through a sequence carry no brackets. -/
theorem collect_container_isArray_witness :
    collect Runtime.bare
        (.struct (.named "Item")
          [("ID", true, .int (.named "int") 1), ("Name", true, .str (.named "string") "Alice")])
        "" [] true newOption =
      collect Runtime.bare
        (.struct (.named "Item")
          [("ID", true, .int (.named "int") 1), ("Name", true, .str (.named "string") "Alice")])
        "" [] false newOption ∧
    Flatten Runtime.bare
        (.seq (.named "[]Item")
          [.struct (.named "Item")
              [("ID", true, .int (.named "int") 1),
                ("Name", true, .str (.named "string") "Alice")],
            .struct (.named "Item")
              [("ID", true, .int (.named "int") 2),
                ("Name", true, .str (.named "string") "Bob")]]) [] =
      ["ID:1", "ID:2", "Name:Alice", "Name:Bob"] :=
  ⟨(collect_container_isArray Runtime.bare (.named "Item") "" [] newOption rfl).2 _,
    by decide⟩

/-- C10, as the code behaves: `FlattenCompare` returns true exactly when the
two flattened lists joined with `|` are the same string; so it returns true
whenever the two lists are equal, and whenever it returns false the two lists
differ. -/
theorem FlattenCompare_iff_join (rt : Runtime) (a b : Value) (options : List Options) :
    (FlattenCompare rt a b options = true ↔
        Join (Flatten rt a options) "|" = Join (Flatten rt b options) "|") ∧
      (Flatten rt a options = Flatten rt b options → FlattenCompare rt a b options = true) ∧
      (FlattenCompare rt a b options = false →
        Flatten rt a options ≠ Flatten rt b options) := by
  have h1 : FlattenCompare rt a b options = true ↔
      Join (Flatten rt a options) "|" = Join (Flatten rt b options) "|" := by
    simp [FlattenCompare]
  refine ⟨h1, fun h => h1.2 (by rw [h]), fun hf he => ?_⟩
  rw [h1.2 (by rw [he])] at hf
  exact Bool.noConfusion hf

/-- C10 as stated fails: the string `a|b:c` and the map with the entries
`"" ↦ "a"` and `"b" ↦ "c"` flatten to different lists, which join to the same
string, so `FlattenCompare` returns true. -/
theorem FlattenCompare_iff_counterexample :
    FlattenCompare Runtime.bare (.str (.named "string") "a|b:c")
        (.map (.named "map[string]string")
          [("", .str (.named "string") "a"), ("b", .str (.named "string") "c")]) [] = true ∧
      Flatten Runtime.bare (.str (.named "string") "a|b:c") [] ≠
        Flatten Runtime.bare
          (.map (.named "map[string]string")
            [("", .str (.named "string") "a"), ("b", .str (.named "string") "c")]) [] := by
  decide

/-! ## Independence of the enumeration order -/

theorem sortStrings_eq_of_perm {l₁ l₂ : List String} (h : l₁.Perm l₂) :
    sortStrings l₁ = sortStrings l₂ :=
  List.eq_of_perm_of_sorted
    (((sortStrings_perm l₁).trans h).trans (sortStrings_perm l₂).symm)
    (sortStrings_sorted l₁) (sortStrings_sorted l₂)

/-- The two sides of a replacement are containers of the same kind, or pointers. -/
theorem ReorderWith.shape {ok : Value → Value → Prop} {v w : Value}
    (h : ReorderWith ok v w) :
    isNil v = false ∧ isNil w = false ∧
      (isRef v = false → isRef w = false ∧ ∀ (rt : Runtime) (e e' : Ty) (pfx : String)
        (out : List String) (a : Bool) (opt : option),
        dispatch rt (.ref e v) pfx out a opt = dispatch rt v pfx out a opt ∧
        dispatch rt (.ref e' w) pfx out a opt = dispatch rt w pfx out a opt) := by
  cases h <;> simp [isNil, isRef, indirect, dispatch]

/-- What `collect` emits on the two sides of a replacement agrees up to order,
when the registry resolves the two sides alike at every enclosing level. -/
theorem collect_reorder_perm (rt : Runtime) (opt : option) {v w : Value}
    (h : ReorderWith (fun a b => resolve rt a = resolve rt b) v w) :
    ∀ (pfx : String) (a : Bool),
      (dispatch rt v pfx [] a opt).Perm (dispatch rt w pfx [] a opt) ∧
      (collect rt v pfx [] a opt).Perm (collect rt w pfx [] a opt) := by
  have step : ∀ {v w : Value}, resolve rt v = resolve rt w →
      isNil v = false → isNil w = false → ∀ (pfx : String) (a : Bool),
      (dispatch rt v pfx [] a opt).Perm (dispatch rt w pfx [] a opt) →
      (collect rt v pfx [] a opt).Perm (collect rt w pfx [] a opt) := by
    intro v w hr hv hw pfx a hd
    rw [collect_eq, collect_eq rt w, hv, hw, hr]
    split
    · exact List.Perm.refl _
    · simp only [Bool.false_eq_true, if_false]
      split
      · exact List.Perm.refl _
      · exact hd
  induction h with
  | @map ty es es' hp hok =>
    intro pfx a
    have hd : (dispatch rt (.map ty es) pfx [] a opt).Perm
        (dispatch rt (.map ty es') pfx [] a opt) := by
      simp only [dispatch, indirect, collectEntries_eq, List.nil_append]
      exact hp.flatMap_right _
    exact ⟨hd, step hok rfl rfl pfx a hd⟩
  | @struct ty ty' fs fs' hp hok =>
    intro pfx a
    have hd : (dispatch rt (.struct ty fs) pfx [] a opt).Perm
        (dispatch rt (.struct ty' fs') pfx [] a opt) := by
      simp only [dispatch, indirect, collectFields_eq, List.nil_append]
      exact hp.flatMap_right _
    exact ⟨hd, step hok rfl rfl pfx a hd⟩
  | @inRef e e' v w hvw hind _ _ hok ih =>
    intro pfx a
    obtain ⟨_, _, hsh⟩ := hvw.shape
    obtain ⟨_, hdis⟩ := hsh hind
    have hd : (dispatch rt (.ref e v) pfx [] a opt).Perm
        (dispatch rt (.ref e' w) pfx [] a opt) := by
      rw [(hdis rt e e' pfx [] a opt).1, (hdis rt e e' pfx [] a opt).2]
      exact (ih pfx a).1
    exact ⟨hd, step hok rfl rfl pfx a hd⟩
  | @inSeq ty ty' l₁ l₂ v w hvw hok ih =>
    intro pfx a
    have hd : (dispatch rt (.seq ty (l₁ ++ v :: l₂)) pfx [] a opt).Perm
        (dispatch rt (.seq ty' (l₁ ++ w :: l₂)) pfx [] a opt) := by
      simp only [dispatch, indirect, collectElems_eq, List.nil_append, List.flatMap_append,
        List.flatMap_cons]
      exact List.Perm.append_left _ (List.Perm.append_right _ (ih pfx true).2)
    exact ⟨hd, step hok rfl rfl pfx a hd⟩
  | @inMap ty ty' l₁ l₂ k v w hvw hok ih =>
    intro pfx a
    have hd : (dispatch rt (.map ty (l₁ ++ (k, v) :: l₂)) pfx [] a opt).Perm
        (dispatch rt (.map ty' (l₁ ++ (k, w) :: l₂)) pfx [] a opt) := by
      simp only [dispatch, indirect, collectEntries_eq, List.nil_append, List.flatMap_append,
        List.flatMap_cons]
      exact List.Perm.append_left _ (List.Perm.append_right _ (ih (path pfx k) false).2)
    exact ⟨hd, step hok rfl rfl pfx a hd⟩
  | @inStruct ty ty' l₁ l₂ name exported v w hvw hok ih =>
    intro pfx a
    have hd : (dispatch rt (.struct ty (l₁ ++ (name, exported, v) :: l₂)) pfx [] a opt).Perm
        (dispatch rt (.struct ty' (l₁ ++ (name, exported, w) :: l₂)) pfx [] a opt) := by
      simp only [dispatch, indirect, collectFields_eq, List.nil_append, List.flatMap_append,
        List.flatMap_cons]
      refine List.Perm.append_left _ (List.Perm.append_right _ ?_)
      cases exported
      · exact List.Perm.refl _
      · exact (ih (path pfx name) false).2
    exact ⟨hd, step hok rfl rfl pfx a hd⟩

/-- C8, as the code behaves: when one mapping that `collect` traverses in a
value is replaced by one with the same entries in another order, or one such
record by one with the same fields in another order, and the registry resolves
the replaced value and every value enclosing it as it did before (as it does
when no transformer is registered for their types), `Flatten` returns the same
list for every list of options, and `FlattenCompare` of the two values is
true.  The replaced value is the value itself or one reached through elements
of sequences, values of map entries, fields of records and single pointers to
variables of concrete type; behind a pointer to a pointer or to a variable of
interface type the code prints the value with `fmt` and does not traverse
it. -/
theorem Flatten_reorder (rt : Runtime) (options : List Options) (v w : Value)
    (h : ReorderWith (fun a b => resolve rt a = resolve rt b) v w) :
    Flatten rt v options = Flatten rt w options ∧
      FlattenCompare rt v w options = true := by
  have hf : Flatten rt v options = Flatten rt w options :=
    sortStrings_eq_of_perm ((collect_reorder_perm rt _ h "" false).2)
  exact ⟨hf, by simp [FlattenCompare, hf]⟩

/-- C8 at the map `{"a": 1, "b": 2}` inside a record, enumerated in the two
possible orders. -/
theorem Flatten_reorder_witness :
    Flatten Runtime.bare
        (.struct (.named "S")
          ([] ++ ("Scores", true, .map (.named "map[string]int")
            [("a", .int (.named "int") 1), ("b", .int (.named "int") 2)]) :: [])) [] =
      Flatten Runtime.bare
        (.struct (.named "S")
          ([] ++ ("Scores", true, .map (.named "map[string]int")
            [("b", .int (.named "int") 2), ("a", .int (.named "int") 1)]) :: [])) [] ∧
    FlattenCompare Runtime.bare
        (.struct (.named "S")
          ([] ++ ("Scores", true, .map (.named "map[string]int")
            [("a", .int (.named "int") 1), ("b", .int (.named "int") 2)]) :: []))
        (.struct (.named "S")
          ([] ++ ("Scores", true, .map (.named "map[string]int")
            [("b", .int (.named "int") 2), ("a", .int (.named "int") 1)]) :: [])) [] = true :=
  Flatten_reorder Runtime.bare [] _ _
    (ReorderWith.inStruct (.named "S") (.named "S") [] [] "Scores" true
      (ReorderWith.map (.named "map[string]int") (List.Perm.swap _ _ _) rfl) rfl)

/-- C8 as stated fails: with a transformer registered for the record type `T`,
the record `T{A: 1, B: 2}` flattens to the transformer's fragment, and the
record with the same fields declared in the order `B`, `A`, which is of another
type, flattens to its two fields. -/
theorem Flatten_reorder_counterexample :
    ReorderWith (fun _ _ => True)
        (.struct (.named "T")
          [("A", true, .int (.named "int") 1), ("B", true, .int (.named "int") 2)])
        (.struct (.named "T2")
          [("B", true, .int (.named "int") 2), ("A", true, .int (.named "int") 1)]) ∧
      Flatten Runtime.withT
        (.struct (.named "T")
          [("A", true, .int (.named "int") 1), ("B", true, .int (.named "int") 2)]) [] = [":x"] ∧
      Flatten Runtime.withT
        (.struct (.named "T2")
          [("B", true, .int (.named "int") 2), ("A", true, .int (.named "int") 1)]) [] =
        ["A:1", "B:2"] :=
  ⟨ReorderWith.struct _ _ (List.Perm.swap _ _ _) trivial, by decide, by decide⟩

/-! ## Two runs on one value -/

theorem MapStep.toReorder {ok : Value → Value → Prop} {v w : Value} (h : MapStep ok v w) :
    ReorderWith ok v w := by
  induction h with
  | map ty hp hok => exact ReorderWith.map ty hp hok
  | inRef e _ href hv hw hok ih => exact ReorderWith.inRef e e ih href hv hw hok
  | inSeq ty l₁ l₂ _ hok ih => exact ReorderWith.inSeq ty ty l₁ l₂ ih hok
  | inMap ty l₁ l₂ k _ hok ih => exact ReorderWith.inMap ty ty l₁ l₂ k ih hok
  | inStruct ty l₁ l₂ name exported _ hok ih =>
    exact ReorderWith.inStruct ty ty l₁ l₂ name exported ih hok

/-- Two enumerations of one value flatten to the same list, when the registry
resolves them alike. -/
theorem Flatten_enumerations (rt : Runtime) (options : List Options) {v₁ v₂ : Value}
    (h : Relation.ReflTransGen (MapStep (fun a b => resolve rt a = resolve rt b)) v₁ v₂) :
    Flatten rt v₁ options = Flatten rt v₂ options := by
  induction h with
  | refl => rfl
  | tail _ hstep ih =>
    rw [ih]
    exact sortStrings_eq_of_perm ((collect_reorder_perm rt _ hstep.toReorder "" false).2)

/-- C9, as the code behaves: when the two calls of `Flatten` made by
`FlattenCompare(v, v)` find the same runtime (the registered functions return
in the second call what they returned in the first), the result is true, for
every list of options, in whatever orders the two calls enumerate the maps of
`v`: `v₁` and `v₂` are the value as the first and the second call enumerate
it, and the registry resolves the two enumerations alike. -/
theorem FlattenCompare_refl_runs (rt : Runtime) (options : List Options) (v₁ v₂ : Value)
    (h : Relation.ReflTransGen (MapStep (fun a b => resolve rt a = resolve rt b)) v₁ v₂) :
    FlattenCompareRuns rt rt v₁ v₂ options = true := by
  simp [FlattenCompareRuns, Flatten_enumerations rt options h]

/-- C9 at the map `{"a": 1, "b": 2}` inside a sequence, enumerated in one order
by the first call and in the other order by the second. -/
theorem FlattenCompare_refl_runs_witness :
    FlattenCompareRuns Runtime.bare Runtime.bare
        (.seq (.named "[]map[string]int")
          ([] ++ .map (.named "map[string]int")
            [("a", .int (.named "int") 1), ("b", .int (.named "int") 2)] :: []))
        (.seq (.named "[]map[string]int")
          ([] ++ .map (.named "map[string]int")
            [("b", .int (.named "int") 2), ("a", .int (.named "int") 1)] :: [])) [] = true :=
  FlattenCompare_refl_runs Runtime.bare [] _ _
    (Relation.ReflTransGen.single
      (MapStep.inSeq (.named "[]map[string]int") [] []
        (MapStep.map (.named "map[string]int") (List.Perm.swap _ _ _) rfl) rfl))

/-- C9 as stated fails: with a function registered for the type `C` that counts
its calls and returns the count, the first call of `Flatten` on a value of type
`C` gets the fragment `1` and the second call on the same value gets `2`, so
`FlattenCompare` of the value with itself returns false. -/
theorem FlattenCompare_refl_counterexample :
    Flatten (Runtime.counting 1) (.struct (.named "C") []) [] = [":1"] ∧
      Flatten (Runtime.counting 2) (.struct (.named "C") []) [] = [":2"] ∧
      FlattenCompareRuns (Runtime.counting 1) (Runtime.counting 2)
        (.struct (.named "C") []) (.struct (.named "C") []) [] = false := by
  decide

/-! ## The field filter -/

/-- C15: for every path and every include and exclude list, `shouldSkip`
returns true exactly when the path is not empty and either the include list is
not empty and lacks the path, or the exclude list has the path; so a non-empty
path in both lists is skipped and the empty path never is. -/
theorem shouldSkip_iff (opt : option) (field : String) :
    (opt.shouldSkip field = true ↔
        field ≠ "" ∧ ((opt.includes ≠ [] ∧ field ∉ opt.includes) ∨ field ∈ opt.excludes)) ∧
      (field ≠ "" → field ∈ opt.includes → field ∈ opt.excludes →
        opt.shouldSkip field = true) ∧
      opt.shouldSkip "" = false := by
  have hlen : ∀ l : List String, field ∈ l → 0 < l.length :=
    fun l hl => List.length_pos_of_mem hl
  have h1 : opt.shouldSkip field = true ↔
      field ≠ "" ∧ ((opt.includes ≠ [] ∧ field ∉ opt.includes) ∨ field ∈ opt.excludes) := by
    by_cases hf : field = "" <;> by_cases hi : opt.includes = [] <;>
      by_cases hm : field ∈ opt.includes <;> by_cases he : field ∈ opt.excludes <;>
      simp_all [option.shouldSkip, List.length_pos]
  exact ⟨h1, fun hf _ he => h1.2 ⟨hf, Or.inr he⟩, shouldSkip_empty opt⟩

/-! ## Transformers -/

theorem encode_str (rt : Runtime) (ty : Ty) (s : String) : encode rt (.str ty s) = s := rfl

theorem map_flat_fragments (rt : Runtime) (pfx : String) (isArray : Bool) (res : List String) :
    res.map (fun item => flat rt pfx (.str .string item) isArray) =
      res.map (fun s => if isArray then pfx ++ ":[" ++ s ++ "]" else pfx ++ ":" ++ s) := by
  cases isArray <;> simp [flat, encode_str]

/-- What `collect` does once `resolve` has found a transformer. -/
theorem collect_resolved (rt : Runtime) (v : Value) (res : List String) (pfx : String)
    (out : List String) (isArray : Bool) (opt : option) (hskip : opt.shouldSkip pfx = false)
    (hnil : isNil v = false) (hres : resolve rt v = some res) :
    collect rt v pfx out isArray opt =
      out ++ res.map (fun s => if isArray then pfx ++ ":[" ++ s ++ "]" else pfx ++ ":" ++ s) := by
  rw [collect_eq, if_neg (by simp [hskip]), if_neg (by simp [hnil]), hres]
  simp only [map_flat_fragments]

theorem unbox_of_typeOf {v : Value} {t : Ty} (h : typeOf v = some t) : unbox v = v := by
  cases v <;> simp [typeOf] at h <;> rfl

/-- C13, as the code behaves: when a transformer `f` is registered for the type
`t`, then at every path that is not skipped `collect` appends, for a non-nil
value `v` of type `t` that is not a pointer, and for a non-nil pointer of type
`*t` to a `v` of type `t`, exactly one entry per fragment `s` of `f v`, in the
order of the fragments: `p:s` when `isArray` is false and `p:[s]` when it is
true; the structure of `v` is not traversed. -/
theorem collect_transformer (rt : Runtime) (f : Transformer) (t : Ty) (pfx : String)
    (out : List String) (isArray : Bool) (opt : option)
    (hskip : opt.shouldSkip pfx = false) (hreg : rt.transformers t = some f) :
    (∀ v : Value, isNil v = false → isRef v = false → typeOf v = some t →
        collect rt v pfx out isArray opt =
          out ++ (f v).map
            (fun s => if isArray then pfx ++ ":[" ++ s ++ "]" else pfx ++ ":" ++ s)) ∧
      (∀ v : Value, typeOf v = some t →
        collect rt (.ref t v) pfx out isArray opt =
          out ++ (f v).map
            (fun s => if isArray then pfx ++ ":[" ++ s ++ "]" else pfx ++ ":" ++ s)) := by
  constructor
  · intro v hnil href hty
    apply collect_resolved rt v (f v) pfx out isArray opt hskip hnil
    cases v <;> simp [isNil] at hnil <;> simp [isRef] at href <;>
      simp [typeOf] at hty <;> simp [resolve, typeOf, hty, hreg]
  · intro v hty
    apply collect_resolved rt (.ref t v) (f v) pfx out isArray opt hskip rfl
    simp [resolve, hreg, unbox_of_typeOf hty]

/-- C13 at a record of type `T` with two fragments, under the path `User`, for
the record itself inside a sequence and for a pointer to it. -/
theorem collect_transformer_witness :
    collect (RegisterTransformer Runtime.bare (some (.named "T")) (fun _ => ["a", "b"]))
        (.struct (.named "T") [("X", true, .int (.named "int") 1)]) "User" ["E:1"] true
        newOption =
      ["E:1", "User:[a]", "User:[b]"] ∧
    collect (RegisterTransformer Runtime.bare (some (.named "T")) (fun _ => ["a", "b"]))
        (.ref (.named "T") (.struct (.named "T") [("X", true, .int (.named "int") 1)]))
        "User" ["E:1"] false newOption =
      ["E:1", "User:a", "User:b"] :=
  ⟨(collect_transformer
      (RegisterTransformer Runtime.bare (some (.named "T")) (fun _ => ["a", "b"]))
      (fun _ => ["a", "b"]) (.named "T") "User" ["E:1"] true newOption (by decide)
      (by simp [RegisterTransformer])).1 _ rfl rfl rfl,
    (collect_transformer
      (RegisterTransformer Runtime.bare (some (.named "T")) (fun _ => ["a", "b"]))
      (fun _ => ["a", "b"]) (.named "T") "User" ["E:1"] false newOption (by decide)
      (by simp [RegisterTransformer])).2
        (.struct (.named "T") [("X", true, .int (.named "int") 1)]) rfl⟩

/-- C13 as stated fails: a non-nil pointer of type `*X` to the record `X{X: 1}`
is a non-nil value whose type `*X` has a registered transformer, yet `resolve`
looks up the element type `X`, finds nothing, and `collect` traverses the
record: the entry is `X:1` and the fragment `frag` is not used. -/
theorem collect_transformer_counterexample :
    typeOf (.ref (.named "X") (.struct (.named "X") [("X", true, .int (.named "int") 1)])) =
        some (.ptr (.named "X")) ∧
      (RegisterTransformer Runtime.bare (some (.ptr (.named "X")))
        (fun _ => ["frag"])).transformers (.ptr (.named "X")) = some (fun _ => ["frag"]) ∧
      collect
        (RegisterTransformer Runtime.bare (some (.ptr (.named "X"))) (fun _ => ["frag"]))
        (.ref (.named "X") (.struct (.named "X") [("X", true, .int (.named "int") 1)]))
        "" [] false newOption = ["X:1"] ∧
      collect
        (RegisterTransformer Runtime.bare (some (.ptr (.named "X"))) (fun _ => ["frag"]))
        (.ref (.named "X") (.struct (.named "X") [("X", true, .int (.named "int") 1)]))
        "" [] false newOption ≠ [":frag"] := by
  refine ⟨rfl, ?_, by decide, by decide⟩
  simp [RegisterTransformer]

/-- C12 on the code: after registering for the record type `T` the transformer
that returns the fragment `name:` followed by the record's `name`, `Flatten`
of an instance returns one entry, whatever the other fields, but the entry is
the fragment behind the empty root path and a colon, `:name:Alice` for the
name `Alice`, and not the fragment `name:Alice` itself. -/
theorem Flatten_registered_name (rt : Runtime) (T ty : Ty) (s : String)
    (rest : List (String × Bool × Value)) :
    Flatten (RegisterTransformer rt (some T) nameFragment)
        (.struct T (("name", false, .str ty s) :: rest)) [] = [":name:" ++ s] ∧
      Flatten (RegisterTransformer Runtime.bare (some (.named "CustomType")) nameFragment)
        (.struct (.named "CustomType")
          [("name", false, .str (.named "string") "Alice"),
            ("Age", true, .int (.named "int") 30)]) [] = [":name:Alice"] := by
  constructor
  · rw [Flatten, collect_resolved (RegisterTransformer rt (some T) nameFragment)
      (.struct T (("name", false, .str ty s) :: rest)) ["name:" ++ s] "" [] false _
      (shouldSkip_empty _) rfl (by simp [resolve, typeOf, RegisterTransformer, nameFragment])]
    simp only [List.nil_append, List.map_cons, List.map_nil, Bool.false_eq_true, if_false,
      sortStrings_singleton, String.empty_append_eq, ← String.append_assoc]
    rfl
  · decide

/-- C14, as the code behaves: in a record whose own type has no registered
transformer, an exported field `F` with a nil value (nil pointer, nil slice, nil
map) contributes exactly the entry `F:[null]`, whatever
is registered for the type of the field: the registry is not consulted at a
nil value. -/
theorem Flatten_nil_field (rt : Runtime) (ty : Ty) (l₁ l₂ : List (String × Bool × Value))
    (F : String) (nilv : Value) (hnil : isNil nilv = true)
    (hty : rt.transformers ty = none) :
    Flatten rt (.struct ty (l₁ ++ (F, true, nilv) :: l₂)) [] =
        sortStrings (collectFields rt l₁ "" [] newOption ++ [F ++ ":[null]"] ++
          collectFields rt l₂ "" [] newOption) ∧
      F ++ ":[null]" ∈ Flatten rt (.struct ty (l₁ ++ (F, true, nilv) :: l₂)) [] ∧
      ∀ (rt' : Runtime) (out : List String),
        collect rt' nilv F out false newOption = out ++ [F ++ ":[null]"] := by
  have hskip : newOption.shouldSkip F = false := by simp [option.shouldSkip, newOption]
  have hfield : ∀ (rt' : Runtime) (out : List String),
      collect rt' nilv F out false newOption = out ++ [F ++ ":[null]"] := by
    intro rt' out
    simpa using collect_nil rt' nilv hnil F out false newOption hskip
  have hflat : Flatten rt (.struct ty (l₁ ++ (F, true, nilv) :: l₂)) [] =
      sortStrings (collectFields rt l₁ "" [] newOption ++ [F ++ ":[null]"] ++
        collectFields rt l₂ "" [] newOption) := by
    rw [Flatten]
    congr 1
    have hopt : applyOptions [] = newOption := rfl
    rw [hopt, collect_eq, if_neg (by simp [shouldSkip_empty])]
    simp only [isNil, resolve, typeOf, hty, dispatch, indirect, collectFields_eq,
      Bool.false_eq_true, if_false, List.nil_append, List.flatMap_append, List.flatMap_cons,
      if_true, path_empty_left, hfield rt []]
    simp
  refine ⟨hflat, ?_, hfield⟩
  rw [hflat]
  exact (sortStrings_perm _).symm.subset (by simp)

/-- C14 at the record `{Name: "Bob", Next: nil}` whose field `Next` is a nil
pointer of a type with a registered transformer. -/
theorem Flatten_nil_field_witness :
    Flatten (RegisterTransformer Runtime.bare (some (.named "T")) (fun _ => ["x"]))
        (.struct (.named "S")
          ([("Name", true, .str (.named "string") "Bob")] ++
            ("Next", true, .nilRef (.named "T")) :: [])) [] =
      ["Name:Bob", "Next:[null]"] := by
  have h := (Flatten_nil_field
    (RegisterTransformer Runtime.bare (some (.named "T")) (fun _ => ["x"])) (.named "S")
    [("Name", true, .str (.named "string") "Bob")] [] "Next" (.nilRef (.named "T")) rfl
    (by simp [RegisterTransformer, Runtime.bare])).1
  rw [h]
  decide

/-- C14 as stated fails: with a transformer registered for the record type
`Node`, the record `Node{Val: 1, Next: nil}`, whose field `Next` is a nil
pointer to a `Node`, flattens to the transformer's fragment and has no entry
`Next:[null]`. -/
theorem Flatten_nil_field_counterexample :
    Flatten (RegisterTransformer Runtime.bare (some (.named "Node")) (fun _ => ["node"]))
        (.struct (.named "Node")
          [("Val", true, .int (.named "int") 1), ("Next", true, .nilRef (.named "Node"))]) [] =
      [":node"] ∧
    "Next:[null]" ∉
      Flatten (RegisterTransformer Runtime.bare (some (.named "Node")) (fun _ => ["node"]))
        (.struct (.named "Node")
          [("Val", true, .int (.named "int") 1), ("Next", true, .nilRef (.named "Node"))]) [] := by
  decide

/-! ## Hidden fields -/

theorem flatMap_exported_congr (rt : Runtime) (opt : option) (pfx : String)
    {fs gs : List (String × Bool × Value)} (h : SameExported fs gs) :
    fs.flatMap (fun f => if f.2.1 then collect rt f.2.2 (path pfx f.1) [] false opt else []) =
      gs.flatMap (fun f =>
        if f.2.1 then collect rt f.2.2 (path pfx f.1) [] false opt else []) := by
  induction h with
  | nil => rfl
  | @cons f g fs gs hfg _ ih =>
    obtain ⟨n, e, x⟩ := f
    obtain ⟨n', e', x'⟩ := g
    obtain ⟨h1, h2, h3⟩ := hfg
    simp only at h1 h2 h3
    subst h1 h2
    rw [List.flatMap_cons, List.flatMap_cons, ih]
    cases e
    · rfl
    · rw [h3 rfl]

theorem flatMap_exported_filter (rt : Runtime) (opt : option) (pfx : String)
    (fs : List (String × Bool × Value)) :
    fs.flatMap (fun f => if f.2.1 then collect rt f.2.2 (path pfx f.1) [] false opt else []) =
      (fs.filter (fun f => f.2.1)).flatMap
        (fun f => collect rt f.2.2 (path pfx f.1) [] false opt) := by
  induction fs with
  | nil => rfl
  | cons f rest ih =>
    obtain ⟨n, e, x⟩ := f
    cases e <;> simp [List.filter_cons, ih]

/-- C16: two records of one type without registered transformer, whose fields
have the same names and visibility and whose exported fields hold the same
values, flatten to the same list under every list of options; and the entries
of a record are those of its exported fields only, so no entry comes from a
hidden field, whatever the include list names. -/
theorem Flatten_hidden (rt : Runtime) (options : List Options) (ty : Ty)
    (fs gs : List (String × Bool × Value)) (hty : rt.transformers ty = none)
    (h : SameExported fs gs) :
    Flatten rt (.struct ty fs) options = Flatten rt (.struct ty gs) options ∧
      Flatten rt (.struct ty fs) options =
        sortStrings ((fs.filter (fun f => f.2.1)).flatMap
          (fun f => collect rt f.2.2 (path "" f.1) [] false (applyOptions options))) := by
  have hc : ∀ l : List (String × Bool × Value),
      collect rt (.struct ty l) "" [] false (applyOptions options) =
        l.flatMap (fun f =>
          if f.2.1 then collect rt f.2.2 (path "" f.1) [] false (applyOptions options)
          else []) := by
    intro l
    rw [collect_eq, if_neg (by simp [shouldSkip_empty])]
    simp [isNil, resolve, typeOf, hty, dispatch, indirect, collectFields_eq]
  constructor
  · rw [Flatten, Flatten, hc, hc, flatMap_exported_congr rt _ "" h]
  · rw [Flatten, hc, flatMap_exported_filter]

/-- C16 at two records that differ in the hidden field `secret`, with an
include list that names it. -/
theorem Flatten_hidden_witness :
    Flatten Runtime.bare
        (.struct (.named "S")
          [("secret", false, .int (.named "int") 1), ("Name", true, .str (.named "string") "A")])
        [WithIncludeFields ["secret", "Name"]] =
      Flatten Runtime.bare
        (.struct (.named "S")
          [("secret", false, .int (.named "int") 2), ("Name", true, .str (.named "string") "A")])
        [WithIncludeFields ["secret", "Name"]] :=
  (Flatten_hidden Runtime.bare [WithIncludeFields ["secret", "Name"]] (.named "S") _ _ rfl
    (List.Forall₂.cons ⟨rfl, rfl, fun h => Bool.noConfusion h⟩
      (List.Forall₂.cons ⟨rfl, rfl, fun _ => rfl⟩ List.Forall₂.nil))).1

/-! ## Pointers -/

/-- C19, as the code behaves: a pointer of type `*t` to a variable of the
concrete type `t` holding `v`, where `v` is a primitive or a non-nil sequence,
mapping or record, is handled as `v` itself: `resolve` and `encode` return the
same, `collect` returns the same accumulator at every path, and `Flatten`
returns the same list, for every list of options and every registry state. -/
theorem Flatten_ref (rt : Runtime) (options : List Options) (t : Ty) (v : Value)
    (hty : typeOf v = some t)
    (hv : isPrimitive v = true ∨ (∃ ty xs, v = .seq ty xs) ∨ (∃ ty es, v = .map ty es) ∨
      (∃ ty fs, v = .struct ty fs)) :
    resolve rt (.ref t v) = resolve rt v ∧
      encode rt (.ref t v) = encode rt v ∧
      (∀ (pfx : String) (out : List String) (isArray : Bool) (opt : option),
        collect rt (.ref t v) pfx out isArray opt = collect rt v pfx out isArray opt) ∧
      Flatten rt (.ref t v) options = Flatten rt v options := by
  have hr : resolve rt (.ref t v) = resolve rt v := by
    rcases hv with hp | ⟨ty, xs, rfl⟩ | ⟨ty, es, rfl⟩ | ⟨ty, fs, rfl⟩
    · cases v <;> simp [isPrimitive] at hp <;> simp [typeOf] at hty <;>
        simp [resolve, typeOf, hty, unbox]
    all_goals simp [typeOf] at hty; simp [resolve, typeOf, hty, unbox]
  have he : encode rt (.ref t v) = encode rt v := by
    rcases hv with hp | ⟨ty, xs, rfl⟩ | ⟨ty, es, rfl⟩ | ⟨ty, fs, rfl⟩
    · cases v <;> simp [isPrimitive] at hp <;> simp [encode, isNil, indirect]
    all_goals simp [encode, isNil, indirect]
  have hc : ∀ (pfx : String) (out : List String) (isArray : Bool) (opt : option),
      collect rt (.ref t v) pfx out isArray opt = collect rt v pfx out isArray opt := by
    intro pfx out isArray opt
    rw [collect_eq, collect_eq rt v, hr]
    have hd : dispatch rt (.ref t v) pfx out isArray opt = dispatch rt v pfx out isArray opt := by
      rcases hv with hp | ⟨ty, xs, rfl⟩ | ⟨ty, es, rfl⟩ | ⟨ty, fs, rfl⟩
      · cases v <;> simp [isPrimitive] at hp <;>
          simp [dispatch, indirect, flat, encode, isNil]
      all_goals simp [dispatch, indirect]
    have hn : isNil v = false := by
      rcases hv with hp | ⟨ty, xs, rfl⟩ | ⟨ty, es, rfl⟩ | ⟨ty, fs, rfl⟩
      · cases v <;> simp [isPrimitive] at hp <;> rfl
      all_goals rfl
    have hn' : isNil (.ref t v) = false := rfl
    rw [hd, hn, hn']
  exact ⟨hr, he, hc, by rw [Flatten, Flatten, hc]⟩

/-- C19 as stated fails: for a variable `x` of type `any` holding the record
`{Name: "Alice"}`, the pointer `&x` points at a value of kind interface, the
kind switch takes the default case and the record is printed whole by `fmt`,
while the record itself flattens to the entry of its field. -/
theorem Flatten_ref_counterexample :
    Flatten Runtime.printing
        (.ref (.named "interface {}")
          (.iface (.struct (.named "S") [("Name", true, .str (.named "string") "Alice")])))
        [] = [":\x7bAlice\x7d"] ∧
      Flatten Runtime.printing
        (.struct (.named "S") [("Name", true, .str (.named "string") "Alice")]) [] =
        ["Name:Alice"] := by
  decide

/-- C19 at a pointer to the record `{Name: "Alice"}` and at a pointer to the
integer `42`. -/
theorem Flatten_ref_witness :
    Flatten Runtime.bare
        (.ref (.named "S") (.struct (.named "S") [("Name", true, .str (.named "string") "Alice")]))
        [] =
      Flatten Runtime.bare
        (.struct (.named "S") [("Name", true, .str (.named "string") "Alice")]) [] ∧
    Flatten Runtime.bare (.ref (.named "int") (.int (.named "int") 42)) [] =
      Flatten Runtime.bare (.int (.named "int") 42) [] :=
  ⟨(Flatten_ref Runtime.bare [] (.named "S")
      (.struct (.named "S") [("Name", true, .str (.named "string") "Alice")]) rfl
      (Or.inr (Or.inr (Or.inr ⟨_, _, rfl⟩)))).2.2.2,
    (Flatten_ref Runtime.bare [] (.named "int") (.int (.named "int") 42) rfl
      (Or.inl rfl)).2.2.2⟩

/-! ## Filters that agree below a path -/

theorem dispatch_congr_opt (rt : Runtime) (opt₁ opt₂ : option) (v : Value) (pfx : String)
    (out : List String) (isArray : Bool)
    (h : ∀ c ∈ children v, ∀ (k : String) (a : Bool),
      collect rt c (path pfx k) [] a opt₁ = collect rt c (path pfx k) [] a opt₂)
    (h' : ∀ c ∈ children v, ∀ (a : Bool),
      collect rt c pfx [] a opt₁ = collect rt c pfx [] a opt₂) :
    dispatch rt v pfx out isArray opt₁ = dispatch rt v pfx out isArray opt₂ := by
  unfold dispatch
  unfold children at h h'
  split
  · rename_i xs hxs
    rw [hxs] at h'
    rw [collectElems_eq, collectElems_eq]
    congr 1
    exact List.flatMap_congr (fun x hx => h' x hx true)
  · rfl
  · rename_i es hes
    rw [hes] at h
    rw [collectEntries_eq, collectEntries_eq]
    congr 1
    exact List.flatMap_congr (fun e he => h e.2 (List.mem_map_of_mem _ he) e.1 false)
  · rfl
  · rename_i fs hfs
    rw [hfs] at h
    rw [collectFields_eq, collectFields_eq]
    congr 1
    apply List.flatMap_congr
    intro f hf
    cases hfe : f.2.1
    · rfl
    · simp only [if_true]
      exact h f.2.2 (List.mem_map_of_mem _ hf) f.1 false
  · rfl

/-- Two options that skip the same paths within a set of paths closed under
`path` give the same result from any path of the set. -/
theorem collect_congr_opt (rt : Runtime) (opt₁ opt₂ : option) (S : String → Prop)
    (hS : ∀ p k, S p → S (path p k))
    (hagree : ∀ p, S p → opt₁.shouldSkip p = opt₂.shouldSkip p) (v : Value) :
    ∀ (pfx : String) (out : List String) (isArray : Bool), S pfx →
      collect rt v pfx out isArray opt₁ = collect rt v pfx out isArray opt₂ := by
  induction v using Value.induction with
  | h v ih =>
    intro pfx out isArray hp
    rw [collect_eq, collect_eq rt v pfx out isArray opt₂, hagree pfx hp,
      dispatch_congr_opt rt opt₁ opt₂ v pfx out isArray
        (fun c hc k a => ih c hc (path pfx k) [] a (hS pfx k hp))
        (fun c hc a => ih c hc pfx [] a hp)]

theorem path_of_ne_empty (root key : String) (h : root ≠ "") :
    path root key = if key = "" then root else root ++ "." ++ key := by
  by_cases hk : key = "" <;> simp [path, h, hk]

theorem Under.path {g p : String} (hg : g ≠ "") (h : Under g p) (k : String) :
    Under g (flatten.path p k) := by
  have hp : p ≠ "" := by
    rcases h with rfl | ⟨s, rfl⟩
    · exact hg
    · intro h0
      have := congrArg String.length h0
      simp only [String.length_append] at this
      have h1 : (".").length = 1 := rfl
      rw [h1] at this
      have h2 : ("").length = 0 := rfl
      rw [h2] at this
      omega
  rw [path_of_ne_empty p k hp]
  by_cases hk : k = ""
  · simpa [hk] using h
  · simp only [hk, if_false]
    rcases h with rfl | ⟨s, rfl⟩
    · exact Or.inr ⟨k, rfl⟩
    · exact Or.inr ⟨s ++ "." ++ k, by simp [String.append_assoc]⟩

theorem Under.ne {g p f : String} (h : Under g p) (hfg : f ≠ g) (hdot : '.' ∉ f.toList) :
    p ≠ f := by
  rcases h with rfl | ⟨s, rfl⟩
  · exact fun h => hfg h.symm
  · intro h
    apply hdot
    rw [← h]
    simp

theorem applyOptions_exclude (F : String) :
    applyOptions [WithExcludeFields [F]] = { includes := [], excludes := [F] } := by
  simp [applyOptions, WithExcludeFields, newOption]

/-- A record without registered transformer at the root: the entries of its
exported fields, each collected under its name. -/
theorem collect_struct_root (rt : Runtime) (ty : Ty) (l : List (String × Bool × Value))
    (opt : option) (hty : rt.transformers ty = none) :
    collect rt (.struct ty l) "" [] false opt =
      l.flatMap (fun f =>
        if f.2.1 then collect rt f.2.2 (path "" f.1) [] false opt else []) := by
  rw [collect_eq, if_neg (by simp [shouldSkip_empty])]
  simp [isNil, resolve, typeOf, hty, dispatch, indirect, collectFields_eq]

/-- Excluding the dot-free name `F` changes nothing below another top-level
name. -/
theorem collect_exclude_other (rt : Runtime) (F g : String) (hg : g ≠ "") (hgF : g ≠ F)
    (hdot : '.' ∉ F.toList) (v : Value) (out : List String) (isArray : Bool) :
    collect rt v g out isArray { includes := [], excludes := [F] } =
      collect rt v g out isArray newOption :=
  collect_congr_opt rt _ _ (Under g) (fun _ k hp => hp.path hg k)
    (fun p hp => by
      have hne : p ≠ F := hp.ne (fun h => hgF h.symm) hdot
      simp [option.shouldSkip, newOption, hne]) v g out isArray (Or.inl rfl)

/-- C17: in a record without registered transformer, excluding the name `F` of
an exported field, where `F` is not empty and has no dot and the other fields
have non-empty names different from `F`, gives the list that `Flatten` without
options returns for the record without the field `F` (of a type without
registered transformer), whatever value the field holds. -/
theorem Flatten_exclude_field (rt : Runtime) (ty ty' : Ty)
    (l₁ l₂ : List (String × Bool × Value)) (F : String) (v : Value)
    (hty : rt.transformers ty = none) (hty' : rt.transformers ty' = none)
    (hF : F ≠ "") (hdot : '.' ∉ F.toList)
    (hothers : ∀ g ∈ l₁ ++ l₂, g.1 ≠ "" ∧ g.1 ≠ F) :
    Flatten rt (.struct ty (l₁ ++ (F, true, v) :: l₂)) [WithExcludeFields [F]] =
      Flatten rt (.struct ty' (l₁ ++ l₂)) [] := by
  have hopt : applyOptions [] = newOption := rfl
  have hside : ∀ l : List (String × Bool × Value), (∀ g ∈ l, g.1 ≠ "" ∧ g.1 ≠ F) →
      l.flatMap (fun f => if f.2.1 then
          collect rt f.2.2 (path "" f.1) [] false { includes := [], excludes := [F] }
        else []) =
      l.flatMap (fun f => if f.2.1 then collect rt f.2.2 (path "" f.1) [] false newOption
        else []) := by
    intro l hl
    apply List.flatMap_congr
    intro f hf
    rw [path_empty_left, collect_exclude_other rt F f.1 (hl f hf).1 (hl f hf).2 hdot]
  have hskipF : ({ includes := [], excludes := [F] } : option).shouldSkip F = true := by
    simp [option.shouldSkip, hF]
  rw [Flatten, Flatten, applyOptions_exclude, hopt, collect_struct_root rt ty _ _ hty,
    collect_struct_root rt ty' _ _ hty', List.flatMap_append, List.flatMap_append,
    List.flatMap_cons, hside l₁ (fun g hg => hothers g (List.mem_append_left _ hg)),
    hside l₂ (fun g hg => hothers g (List.mem_append_right _ hg))]
  simp only [if_true, path_empty_left, collect_skipped rt v F [] false _ hskipF,
    List.nil_append]

/-- C17 at the record `{Name: "Bob", Scores: {"math": 95}}` with the container
field `Scores` excluded. -/
theorem Flatten_exclude_field_witness :
    Flatten Runtime.bare
        (.struct (.named "S")
          ([("Name", true, .str (.named "string") "Bob")] ++
            ("Scores", true, .map (.named "map[string]int")
              [("math", .int (.named "int") 95)]) :: []))
        [WithExcludeFields ["Scores"]] =
      Flatten Runtime.bare
        (.struct (.named "S2") ([("Name", true, .str (.named "string") "Bob")] ++ [])) [] :=
  Flatten_exclude_field Runtime.bare (.named "S") (.named "S2")
    [("Name", true, .str (.named "string") "Bob")] [] "Scores"
    (.map (.named "map[string]int") [("math", .int (.named "int") 95)]) rfl rfl (by decide)
    (by decide)
    (by
      intro g hg
      simp only [List.append_nil, List.mem_singleton] at hg
      subst hg
      exact ⟨by decide, by decide⟩)

/-! ## Include lists and nested paths -/

theorem WithIncludeFields_spec (fields : List String) (opt : option) :
    (∀ x, x ∈ (WithIncludeFields fields opt).includes ↔ x ∈ opt.includes ∨ x ∈ fields) ∧
      (WithIncludeFields fields opt).excludes = opt.excludes := by
  unfold WithIncludeFields
  induction fields generalizing opt with
  | nil => simp
  | cons f rest ih =>
    rw [List.foldl_cons]
    by_cases hf : opt.includes.contains f = true
    · rw [if_pos hf]
      obtain ⟨h1, h2⟩ := ih opt
      refine ⟨fun x => ?_, h2⟩
      rw [h1 x, List.mem_cons]
      have hf' : f ∈ opt.includes := by simpa using hf
      constructor
      · rintro (h | h)
        · exact Or.inl h
        · exact Or.inr (Or.inr h)
      · rintro (h | rfl | h)
        · exact Or.inl h
        · exact Or.inl hf'
        · exact Or.inr h
    · rw [if_neg hf]
      obtain ⟨h1, h2⟩ := ih { opt with includes := opt.includes ++ [f] }
      refine ⟨fun x => ?_, h2⟩
      rw [h1 x]
      simp only [List.mem_append, List.mem_singleton, List.mem_cons]
      tauto

/-- With one `WithIncludeFields` option, a non-empty path is skipped exactly
when it is not among the given names. -/
theorem shouldSkip_include (fields : List String) (hne : fields ≠ []) (p : String)
    (hp : p ≠ "") :
    (applyOptions [WithIncludeFields fields]).shouldSkip p = decide (p ∉ fields) := by
  have hspec := WithIncludeFields_spec fields newOption
  have hopt : applyOptions [WithIncludeFields fields] = WithIncludeFields fields newOption := rfl
  have hmem : ∀ x, x ∈ (WithIncludeFields fields newOption).includes ↔ x ∈ fields := by
    intro x
    rw [hspec.1 x]
    simp [newOption]
  have hexc : (WithIncludeFields fields newOption).excludes = [] := hspec.2
  have hinc : (WithIncludeFields fields newOption).includes ≠ [] := by
    obtain ⟨f, hf⟩ := List.exists_mem_of_ne_nil fields hne
    exact List.ne_nil_of_mem ((hmem f).2 hf)
  rw [hopt]
  by_cases hpf : p ∈ fields
  · have : (WithIncludeFields fields newOption).shouldSkip p = false :=
      (shouldSkip_eq_false_iff _ p hp).2 ⟨Or.inr ((hmem p).2 hpf), by simp [hexc]⟩
    simp [this, hpf]
  · have : (WithIncludeFields fields newOption).shouldSkip p ≠ false := by
      intro h
      rcases ((shouldSkip_eq_false_iff _ p hp).1 h).1 with h1 | h1
      · exact hinc h1
      · exact hpf ((hmem p).1 h1)
    simp [hpf, Bool.eq_true_of_not_eq_false this]

theorem String.append_dot_ne (a b : String) : a ++ "." ++ b ≠ a := by
  intro h
  have := congrArg String.length h
  simp only [String.length_append] at this
  have h1 : (".").length = 1 := rfl
  rw [h1] at this
  omega

theorem String.append_dot_cancel {a b c : String} (h : a ++ "." ++ b = a ++ "." ++ c) :
    b = c := by
  have := congrArg String.toList h
  simp only [String.toList, String.data_append, List.append_assoc] at this
  exact String.ext (List.append_cancel_left (List.append_cancel_left this))

theorem String.ne_append_dot {g : String} (hg : '.' ∉ g.toList) (a b : String) :
    g ≠ a ++ "." ++ b := by
  intro h
  apply hg
  rw [h]
  simp

/-- The fields whose paths are all skipped contribute nothing. -/
theorem flatMap_fields_skipped (rt : Runtime) (opt : option) (pfx : String)
    (l : List (String × Bool × Value))
    (h : ∀ g ∈ l, opt.shouldSkip (path pfx g.1) = true) :
    l.flatMap (fun f => if f.2.1 then collect rt f.2.2 (path pfx f.1) [] false opt else []) =
      [] := by
  rw [List.flatMap_eq_nil_iff]
  intro f hf
  cases f.2.1
  · rfl
  · simp only [if_true]
    exact collect_skipped rt _ _ _ _ _ (h f hf)

/-- C18, as the code behaves: in a record `r` whose exported field `A` holds a
record with the exported primitive field `B` (no transformer registered for the
two record types nor for the type of `b`; names non-empty, those of `r` without
a dot, no other field of `r` named `A` and no other field of the inner record
named `B`), including only the dotted path `A.B` gives the empty list, because
the path `A` is not in the include list and is skipped before the recursion
reaches `A.B`; including `A` and `A.B` gives exactly the entry of `B`. -/
theorem Flatten_include_nested (rt : Runtime) (ty ty₂ : Ty)
    (l₁ l₂ m₁ m₂ : List (String × Bool × Value)) (A B : String) (b : Value)
    (hty : rt.transformers ty = none) (hty₂ : rt.transformers ty₂ = none)
    (hb : isPrimitive b = true) (hub : Unregistered rt b)
    (hA : A ≠ "") (hAdot : '.' ∉ A.toList) (hB : B ≠ "")
    (hl : ∀ g ∈ l₁ ++ l₂, g.1 ≠ "" ∧ '.' ∉ g.1.toList ∧ g.1 ≠ A)
    (hm : ∀ g ∈ m₁ ++ m₂, g.1 ≠ "" ∧ g.1 ≠ B) :
    Flatten rt
        (.struct ty (l₁ ++ (A, true, .struct ty₂ (m₁ ++ (B, true, b) :: m₂)) :: l₂))
        [WithIncludeFields [A ++ "." ++ B]] = [] ∧
      Flatten rt
        (.struct ty (l₁ ++ (A, true, .struct ty₂ (m₁ ++ (B, true, b) :: m₂)) :: l₂))
        [WithIncludeFields [A, A ++ "." ++ B]] = [A ++ "." ++ B ++ ":" ++ encode rt b] := by
  have hAB : A ++ "." ++ B ≠ "" := by
    intro h
    exact String.append_dot_ne A B (h.trans (by
      have := congrArg String.length h
      simp only [String.length_append] at this
      apply String.ext
      have h0 : A.length = 0 := by
        have h2 : ("").length = 0 := rfl
        rw [h2] at this
        omega
      have : A.data.length = 0 := h0
      simp [List.length_eq_zero.1 this]))
  constructor
  · -- only `A.B` included: every top-level field is skipped
    rw [Flatten, collect_struct_root rt ty _ _ hty, flatMap_fields_skipped]
    · rfl
    · intro g hg
      rw [path_empty_left]
      have hgne : g.1 ≠ "" ∧ '.' ∉ g.1.toList := by
        rcases List.mem_append.1 hg with h | h
        · exact ⟨(hl g (List.mem_append_left _ h)).1, (hl g (List.mem_append_left _ h)).2.1⟩
        · rcases List.mem_cons.1 h with h | h
          · subst h
            exact ⟨hA, hAdot⟩
          · exact ⟨(hl g (List.mem_append_right _ h)).1,
              (hl g (List.mem_append_right _ h)).2.1⟩
      rw [shouldSkip_include _ (by simp) _ hgne.1]
      simpa using String.ne_append_dot hgne.2 A B
  · -- `A` and `A.B` included
    have hskip : ∀ p, p ≠ "" → p ≠ A → p ≠ A ++ "." ++ B →
        (applyOptions [WithIncludeFields [A, A ++ "." ++ B]]).shouldSkip p = true := by
      intro p hp h1 h2
      rw [shouldSkip_include _ (by simp) _ hp]
      simp [h1, h2]
    have hkeepA : (applyOptions [WithIncludeFields [A, A ++ "." ++ B]]).shouldSkip A = false := by
      rw [shouldSkip_include _ (by simp) _ hA]
      simp
    have hkeepB : (applyOptions [WithIncludeFields [A, A ++ "." ++ B]]).shouldSkip
        (A ++ "." ++ B) = false := by
      rw [shouldSkip_include _ (by simp) _ hAB]
      simp
    have houter : ∀ l : List (String × Bool × Value),
        (∀ g ∈ l, g.1 ≠ "" ∧ '.' ∉ g.1.toList ∧ g.1 ≠ A) →
        l.flatMap (fun f => if f.2.1 then
            collect rt f.2.2 (path "" f.1) [] false
              (applyOptions [WithIncludeFields [A, A ++ "." ++ B]])
          else []) = [] := by
      intro l hl'
      apply flatMap_fields_skipped
      intro g hg
      rw [path_empty_left]
      exact hskip g.1 (hl' g hg).1 (hl' g hg).2.2 (String.ne_append_dot (hl' g hg).2.1 A B)
    have hinner : ∀ l : List (String × Bool × Value),
        (∀ g ∈ l, g.1 ≠ "" ∧ g.1 ≠ B) →
        l.flatMap (fun f => if f.2.1 then
            collect rt f.2.2 (path A f.1) [] false
              (applyOptions [WithIncludeFields [A, A ++ "." ++ B]])
          else []) = [] := by
      intro l hl'
      apply flatMap_fields_skipped
      intro g hg
      rw [path_of_ne_empty A g.1 hA, if_neg (hl' g hg).1]
      refine hskip _ ?_ (String.append_dot_ne A g.1) ?_
      · intro h
        exact String.append_dot_ne A g.1 (h.trans (by
          have := congrArg String.length h
          simp only [String.length_append] at this
          have h1 : (".").length = 1 := rfl
          have h2 : ("").length = 0 := rfl
          rw [h1, h2] at this
          omega))
      · exact fun h => (hl' g hg).2 (String.append_dot_cancel h)
    have hfieldA : collect rt (.struct ty₂ (m₁ ++ (B, true, b) :: m₂)) A [] false
        (applyOptions [WithIncludeFields [A, A ++ "." ++ B]]) =
        [A ++ "." ++ B ++ ":" ++ encode rt b] := by
      rw [collect_eq, if_neg (by simp [hkeepA])]
      simp only [isNil, resolve, typeOf, hty₂, dispatch, indirect, collectFields_eq,
        Bool.false_eq_true, if_false, List.nil_append, List.flatMap_append, List.flatMap_cons,
        if_true]
      rw [hinner m₁ (fun g hg => hm g (List.mem_append_left _ hg)),
        hinner m₂ (fun g hg => hm g (List.mem_append_right _ hg)),
        path_of_ne_empty A B hA, if_neg hB,
        collect_primitive rt b hb hub _ [] false _ hkeepB]
      simp [flat]
    rw [Flatten, collect_struct_root rt ty _ _ hty, List.flatMap_append, List.flatMap_cons,
      houter l₁ (fun g hg => hl g (List.mem_append_left _ hg)),
      houter l₂ (fun g hg => hl g (List.mem_append_right _ hg))]
    simp only [if_true, path_empty_left, hfieldA, List.nil_append, List.append_nil,
      sortStrings_singleton]

/-- C18 at the record `{A: {B: 1, C: 2}, D: 3}`. -/
theorem Flatten_include_nested_witness :
    Flatten Runtime.bare
        (.struct (.named "R")
          ([] ++ ("A", true, .struct (.named "S")
              ([] ++ ("B", true, .int (.named "int") 1) ::
                [("C", true, .int (.named "int") 2)])) ::
            [("D", true, .int (.named "int") 3)]))
        [WithIncludeFields ["A" ++ "." ++ "B"]] = [] ∧
      Flatten Runtime.bare
        (.struct (.named "R")
          ([] ++ ("A", true, .struct (.named "S")
              ([] ++ ("B", true, .int (.named "int") 1) ::
                [("C", true, .int (.named "int") 2)])) ::
            [("D", true, .int (.named "int") 3)]))
        [WithIncludeFields ["A", "A" ++ "." ++ "B"]] =
        ["A" ++ "." ++ "B" ++ ":" ++ encode Runtime.bare (.int (.named "int") 1)] :=
  Flatten_include_nested Runtime.bare (.named "R") (.named "S") []
    [("D", true, .int (.named "int") 3)] [] [("C", true, .int (.named "int") 2)] "A" "B"
    (.int (.named "int") 1) rfl rfl rfl (fun _ _ => rfl) (by decide) (by decide) (by decide)
    (by
      intro g hg
      simp only [List.nil_append, List.mem_singleton] at hg
      subst hg
      exact ⟨by decide, by decide, by decide⟩)
    (by
      intro g hg
      simp only [List.nil_append, List.mem_singleton] at hg
      subst hg
      exact ⟨by decide, by decide⟩)

/-- C18 as stated fails: for the record `{A: {B: 1}}`, including the dotted
path `A.B` gives the empty list, not the entry `A.B:1`. -/
theorem Flatten_include_nested_counterexample :
    Flatten Runtime.bare
        (.struct (.named "R")
          [("A", true, .struct (.named "S") [("B", true, .int (.named "int") 1)])])
        [WithIncludeFields ["A.B"]] = [] ∧
      Flatten Runtime.bare
        (.struct (.named "R")
          [("A", true, .struct (.named "S") [("B", true, .int (.named "int") 1)])])
        [WithIncludeFields ["A.B"]] ≠ ["A.B:" ++ encode Runtime.bare (.int (.named "int") 1)] := by
  decide

/-! ## Joining is injective on entries without the separator -/

theorem Join_cons_toList (sep : String) (rest : List String) (e : String) :
    (Join (e :: rest) sep).toList =
      e.toList ++ rest.flatMap (fun s => sep.toList ++ s.toList) := by
  simp only [Join]
  induction rest generalizing e with
  | nil => simp
  | cons s rest ih =>
    rw [List.foldl_cons, ih, List.flatMap_cons]
    simp [String.toList, String.data_append, List.append_assoc]

/-- Two lists that start with pieces free of `c` and go on with nothing or with
`c` agree piece by piece. -/
theorem split_at_sep (c : Char) :
    ∀ (a b x y : List Char), c ∉ a → c ∉ b → (x = [] ∨ ∃ t, x = c :: t) →
      (y = [] ∨ ∃ t, y = c :: t) → a ++ x = b ++ y → a = b ∧ x = y
  | [], [], _, _, _, _, _, _, h => ⟨rfl, by simpa using h⟩
  | [], d :: b, x, y, _, hb, hx, _, h => by
    exfalso
    rcases hx with rfl | ⟨t, rfl⟩
    · simp at h
    · simp only [List.nil_append, List.cons_append, List.cons.injEq] at h
      exact hb (by simp [h.1])
  | d :: a, [], x, y, ha, _, _, hy, h => by
    exfalso
    rcases hy with rfl | ⟨t, rfl⟩
    · simp at h
    · simp only [List.nil_append, List.cons_append, List.cons.injEq] at h
      exact ha (by simp [h.1])
  | d :: a, d' :: b, x, y, ha, hb, hx, hy, h => by
    simp only [List.cons_append, List.cons.injEq] at h
    obtain ⟨h1, h2⟩ := split_at_sep c a b x y (fun hc => ha (List.mem_cons_of_mem _ hc))
      (fun hc => hb (List.mem_cons_of_mem _ hc)) hx hy h.2
    exact ⟨by rw [h.1, h1], h2⟩

theorem flatMap_sep_shape (c : Char) (r : List String) :
    r.flatMap (fun s => [c] ++ s.toList) = [] ∨
      ∃ t, r.flatMap (fun s => [c] ++ s.toList) = c :: t := by
  cases r with
  | nil => exact Or.inl rfl
  | cons s r =>
    exact Or.inr ⟨s.toList ++ r.flatMap (fun s => [c] ++ s.toList), by
      simp [List.flatMap_cons]⟩

theorem flatMap_sep_injective (c : Char) :
    ∀ (r₁ r₂ : List String), (∀ s ∈ r₁, c ∉ s.toList) → (∀ s ∈ r₂, c ∉ s.toList) →
      r₁.flatMap (fun s => [c] ++ s.toList) = r₂.flatMap (fun s => [c] ++ s.toList) →
      r₁ = r₂
  | [], [], _, _, _ => rfl
  | [], s :: r, _, _, h => by simp [List.flatMap_cons] at h
  | s :: r, [], _, _, h => by simp [List.flatMap_cons] at h
  | s :: r, s' :: r', h₁, h₂, h => by
    simp only [List.flatMap_cons, List.singleton_append, List.cons_append,
      List.cons.injEq, true_and] at h
    obtain ⟨hs, hr⟩ := split_at_sep c s.toList s'.toList _ _
      (h₁ s (List.mem_cons_self _ _)) (h₂ s' (List.mem_cons_self _ _))
      (flatMap_sep_shape c r) (flatMap_sep_shape c r') h
    rw [String.ext hs, flatMap_sep_injective c r r'
      (fun t ht => h₁ t (List.mem_cons_of_mem _ ht))
      (fun t ht => h₂ t (List.mem_cons_of_mem _ ht)) hr]

/-- Joining with `|` is injective on lists of non-empty strings without `|`. -/
theorem Join_injective (l₁ l₂ : List String)
    (h₁ : ∀ s ∈ l₁, s ≠ "" ∧ '|' ∉ s.toList) (h₂ : ∀ s ∈ l₂, s ≠ "" ∧ '|' ∉ s.toList)
    (h : Join l₁ "|" = Join l₂ "|") : l₁ = l₂ := by
  have hne : ∀ (e : String) (r : List String), e ≠ "" → Join (e :: r) "|" ≠ "" := by
    intro e r he h0
    have := congrArg String.toList h0
    rw [Join_cons_toList] at this
    have hnil : e.toList = [] := (List.append_eq_nil.1 this).1
    exact he (String.ext hnil)
  cases l₁ with
  | nil =>
    cases l₂ with
    | nil => rfl
    | cons e r => exact absurd h.symm (hne e r (h₂ e (List.mem_cons_self _ _)).1)
  | cons e r =>
    cases l₂ with
    | nil => exact absurd h (hne e r (h₁ e (List.mem_cons_self _ _)).1)
    | cons e' r' =>
      have ht := congrArg String.toList h
      rw [Join_cons_toList, Join_cons_toList] at ht
      have hsep : ("|" : String).toList = ['|'] := rfl
      rw [hsep] at ht
      obtain ⟨he, hr⟩ := split_at_sep '|' e.toList e'.toList _ _
        (h₁ e (List.mem_cons_self _ _)).2 (h₂ e' (List.mem_cons_self _ _)).2
        (flatMap_sep_shape '|' r) (flatMap_sep_shape '|' r') ht
      rw [String.ext he, flatMap_sep_injective '|' r r'
        (fun t ht => (h₁ t (List.mem_cons_of_mem _ ht)).2)
        (fun t ht => (h₂ t (List.mem_cons_of_mem _ ht)).2) hr]

/-! ## Every entry holds a colon -/

theorem flat_has_colon (rt : Runtime) (key : String) (value : Value) (isArray : Bool) :
    ':' ∈ (flat rt key value isArray).toList := by
  cases isArray <;> simp [flat]

theorem dispatch_forall (rt : Runtime) (Q : String → Prop)
    (hflat : ∀ key value a, Q (flat rt key value a)) (opt : option) (v : Value)
    (ih : ∀ c ∈ children v, ∀ (pfx : String) (a : Bool),
      ∀ s ∈ collect rt c pfx [] a opt, Q s)
    (pfx : String) (isArray : Bool) :
    ∀ s ∈ dispatch rt v pfx [] isArray opt, Q s := by
  unfold dispatch
  unfold children at ih
  split
  · rename_i xs hxs
    rw [hxs] at ih
    intro s hs
    rw [collectElems_eq, List.nil_append, List.mem_flatMap] at hs
    obtain ⟨x, hx, hsx⟩ := hs
    exact ih x hx pfx true s hsx
  · simp
  · rename_i es hes
    rw [hes] at ih
    intro s hs
    rw [collectEntries_eq, List.nil_append, List.mem_flatMap] at hs
    obtain ⟨e, he, hse⟩ := hs
    exact ih e.2 (List.mem_map_of_mem _ he) _ false s hse
  · simp
  · rename_i fs hfs
    rw [hfs] at ih
    intro s hs
    rw [collectFields_eq, List.nil_append, List.mem_flatMap] at hs
    obtain ⟨f, hf, hsf⟩ := hs
    cases hfe : f.2.1
    · simp [hfe] at hsf
    · simp only [hfe, if_true] at hsf
      exact ih f.2.2 (List.mem_map_of_mem _ hf) _ false s hsf
  · intro s hs
    simp only [List.nil_append, List.mem_singleton] at hs
    rw [hs]
    exact hflat _ _ _

/-- A property of every string built by `flat` holds of every entry. -/
theorem collect_forall (rt : Runtime) (Q : String → Prop)
    (hflat : ∀ key value a, Q (flat rt key value a)) (opt : option) (v : Value) :
    ∀ (pfx : String) (isArray : Bool), ∀ s ∈ collect rt v pfx [] isArray opt, Q s := by
  induction v using Value.induction with
  | h v ih =>
    intro pfx isArray s hs
    rw [collect_eq] at hs
    split at hs
    · simp at hs
    · split at hs
      · simp only [List.nil_append, List.mem_singleton] at hs
        rw [hs]
        exact hflat _ _ _
      · split at hs
        · simp only [List.nil_append, List.mem_map] at hs
          obtain ⟨item, _, rfl⟩ := hs
          exact hflat _ _ _
        · exact dispatch_forall rt Q hflat opt v ih pfx isArray s hs

theorem Flatten_has_colon (rt : Runtime) (v : Value) (options : List Options) :
    ∀ s ∈ Flatten rt v options, ':' ∈ s.toList := by
  intro s hs
  exact collect_forall rt (fun s => ':' ∈ s.toList) (flat_has_colon rt) _ v "" false s
    ((sortStrings_perm _).subset hs)

theorem ne_empty_of_has_colon {s : String} (h : ':' ∈ s.toList) : s ≠ "" := by
  intro h0
  rw [h0] at h
  simp at h

/-- C20: when no entry of the two flattened lists holds the separator `|`,
`FlattenCompare` returns true exactly when the two lists are equal; every entry
holds a colon, hence is not empty, which makes joining injective on such
lists. -/
theorem FlattenCompare_iff_of_no_sep (rt : Runtime) (a b : Value) (options : List Options)
    (ha : ∀ s ∈ Flatten rt a options, '|' ∉ s.toList)
    (hb : ∀ s ∈ Flatten rt b options, '|' ∉ s.toList) :
    (FlattenCompare rt a b options = true ↔ Flatten rt a options = Flatten rt b options) ∧
      (∀ s ∈ Flatten rt a options ++ Flatten rt b options, ':' ∈ s.toList ∧ s ≠ "") := by
  constructor
  · constructor
    · intro h
      have hj : Join (Flatten rt a options) "|" = Join (Flatten rt b options) "|" := by
        simpa [FlattenCompare] using h
      exact Join_injective _ _
        (fun s hs => ⟨ne_empty_of_has_colon (Flatten_has_colon rt a options s hs), ha s hs⟩)
        (fun s hs => ⟨ne_empty_of_has_colon (Flatten_has_colon rt b options s hs), hb s hs⟩) hj
    · intro h
      simp [FlattenCompare, h]
  · intro s hs
    rcases List.mem_append.1 hs with h | h
    · exact ⟨Flatten_has_colon rt a options s h,
        ne_empty_of_has_colon (Flatten_has_colon rt a options s h)⟩
    · exact ⟨Flatten_has_colon rt b options s h,
        ne_empty_of_has_colon (Flatten_has_colon rt b options s h)⟩

/-- C20 at the maps `{"a": 1}` and `{"a": 2}`, whose entries hold no `|`. -/
theorem FlattenCompare_iff_of_no_sep_witness :
    (FlattenCompare Runtime.bare
        (.map (.named "map[string]int") [("a", .int (.named "int") 1)])
        (.map (.named "map[string]int") [("a", .int (.named "int") 2)]) [] = true ↔
      Flatten Runtime.bare (.map (.named "map[string]int") [("a", .int (.named "int") 1)]) [] =
        Flatten Runtime.bare
          (.map (.named "map[string]int") [("a", .int (.named "int") 2)]) []) :=
  (FlattenCompare_iff_of_no_sep Runtime.bare
    (.map (.named "map[string]int") [("a", .int (.named "int") 1)])
    (.map (.named "map[string]int") [("a", .int (.named "int") 2)]) []
    (by decide) (by decide)).1

/-! ## Decimal digits determine the number -/

theorem digitChar_value (k : Nat) (hk : k < 10) : (Nat.digitChar k).toNat - 48 = k := by
  interval_cases k <;> rfl

theorem digitChar_mem (k : Nat) (hk : k < 10) :
    Nat.digitChar k ∈ ['0', '1', '2', '3', '4', '5', '6', '7', '8', '9'] := by
  interval_cases k <;> decide

theorem toDigitsCore_value :
    ∀ (fuel n : Nat) (ds : List Char), n < fuel →
      (Nat.toDigitsCore 10 fuel n ds).foldl (fun acc c => 10 * acc + (c.toNat - 48)) 0 =
        ds.foldl (fun acc c => 10 * acc + (c.toNat - 48)) n
  | 0, _, _, h => absurd h (Nat.not_lt_zero _)
  | fuel + 1, n, ds, h => by
    simp only [Nat.toDigitsCore]
    split
    · rename_i h0
      rw [List.foldl_cons, digitChar_value _ (Nat.mod_lt _ (by decide))]
      congr 1
      omega
    · rename_i h0
      rw [toDigitsCore_value fuel (n / 10) _ (by omega), List.foldl_cons,
        digitChar_value _ (Nat.mod_lt _ (by decide))]
      congr 1
      omega

theorem toDigitsCore_mem :
    ∀ (fuel n : Nat) (ds : List Char), ∀ c ∈ Nat.toDigitsCore 10 fuel n ds,
      c ∈ ['0', '1', '2', '3', '4', '5', '6', '7', '8', '9'] ∨ c ∈ ds
  | 0, _, _, c, h => Or.inr h
  | fuel + 1, n, ds, c, h => by
    simp only [Nat.toDigitsCore] at h
    split at h
    · rcases List.mem_cons.1 h with h | h
      · exact Or.inl (h ▸ digitChar_mem _ (Nat.mod_lt _ (by decide)))
      · exact Or.inr h
    · rcases toDigitsCore_mem fuel (n / 10) _ c h with h | h
      · exact Or.inl h
      · rcases List.mem_cons.1 h with h | h
        · exact Or.inl (h ▸ digitChar_mem _ (Nat.mod_lt _ (by decide)))
        · exact Or.inr h

theorem repr_toList (n : Nat) : (Nat.repr n).toList = Nat.toDigits 10 n := rfl

theorem digitsValue_repr (n : Nat) : digitsValue (Nat.repr n).toList = n := by
  rw [repr_toList, digitsValue, Nat.toDigits, toDigitsCore_value _ _ _ (Nat.lt_succ_self n)]
  rfl

theorem repr_digits (n : Nat) :
    ∀ c ∈ (Nat.repr n).toList, c ∈ ['0', '1', '2', '3', '4', '5', '6', '7', '8', '9'] := by
  intro c hc
  rw [repr_toList, Nat.toDigits] at hc
  rcases toDigitsCore_mem _ _ _ c hc with h | h
  · exact h
  · exact absurd h (List.not_mem_nil _)

theorem repr_injective {n m : Nat} (h : Nat.repr n = Nat.repr m) : n = m := by
  rw [← digitsValue_repr n, ← digitsValue_repr m, h]

theorem FormatInt_injective {i j : Int} (h : FormatInt i = FormatInt j) : i = j := by
  have hminus : ∀ (n m : Nat), Nat.repr n ≠ "-" ++ Nat.repr m := by
    intro n m h
    have hm : '-' ∈ (Nat.repr n).toList := by
      rw [h]
      simp
    exact absurd (repr_digits n '-' hm) (by decide)
  cases i with
  | ofNat n =>
    cases j with
    | ofNat m => rw [repr_injective (n := n) (m := m) h]
    | negSucc m => exact absurd h (hminus n (m + 1))
  | negSucc n =>
    cases j with
    | ofNat m => exact absurd h.symm (hminus m (n + 1))
    | negSucc m =>
      have h' : "-" ++ Nat.repr (n + 1) = "-" ++ Nat.repr (m + 1) := h
      have ht := congrArg String.toList h'
      simp only [String.toList, String.data_append] at ht
      have := repr_injective (String.ext (List.append_cancel_left ht))
      rw [Nat.succ_injective this]

theorem FormatInt_chars (i : Int) :
    ∀ c ∈ (FormatInt i).toList,
      c ∈ ['-', '0', '1', '2', '3', '4', '5', '6', '7', '8', '9'] := by
  intro c hc
  cases i with
  | ofNat n => exact List.mem_cons_of_mem _ (repr_digits n c hc)
  | negSucc n =>
    have hc' : c ∈ ("-" ++ Nat.repr (n + 1)).toList := hc
    simp only [String.toList, String.data_append, List.mem_append] at hc'
    rcases hc' with h | h
    · have : c = '-' := by simpa using h
      rw [this]
      decide
    · exact List.mem_cons_of_mem _ (repr_digits (n + 1) c h)

theorem intEntry_injective {i j : Int} (h : intEntry i = intEntry j) : i = j := by
  have ht := congrArg String.toList h
  simp only [intEntry, String.toList, String.data_append, List.append_assoc] at ht
  have h1 := List.append_cancel_left ht
  have h2 := List.append_cancel_right h1
  exact FormatInt_injective (String.ext h2)

theorem intEntry_no_sep (i : Int) : intEntry i ≠ "" ∧ '|' ∉ (intEntry i).toList := by
  constructor
  · intro h
    have ht := congrArg String.toList h
    simp [intEntry, String.toList, String.data_append] at ht
  · intro h
    simp only [intEntry, String.toList, String.data_append, List.mem_append] at h
    rcases h with (h | h) | h
    · revert h
      decide
    · exact absurd (FormatInt_chars i '|' h) (by decide)
    · revert h
      decide

/-! ## Comparing sequences of integers -/

/-- What `collect` appends at the root for a sequence of primitives. -/
theorem collect_seq_primitives (rt : Runtime) (opt : option) (ty : Ty) (xs : List Value)
    (hty : rt.transformers ty = none)
    (hxs : ∀ x ∈ xs, isPrimitive x = true ∧ Unregistered rt x) :
    collect rt (.seq ty xs) "" [] false opt =
      xs.map (fun x => ":[" ++ encode rt x ++ "]") := by
  rw [collect_eq, if_neg (by simp [shouldSkip_empty])]
  simp only [isNil, resolve, typeOf, hty, dispatch, indirect, collectElems_eq]
  simp only [Bool.false_eq_true, if_false, List.nil_append]
  induction xs with
  | nil => rfl
  | cons x rest ih =>
    rw [List.flatMap_cons, List.map_cons, ih (fun y hy => hxs y (List.mem_cons_of_mem _ hy)),
      collect_primitive rt x (hxs x (List.mem_cons_self _ _)).1
        (hxs x (List.mem_cons_self _ _)).2 "" [] true _ (shouldSkip_empty _)]
    simp [flat, String.empty_append_eq]

theorem Flatten_int_seq (rt : Runtime) (tyS tyI : Ty) (xs : List Int)
    (hS : rt.transformers tyS = none) (hI : rt.transformers tyI = none) :
    Flatten rt (.seq tyS (xs.map (Value.int tyI))) [] = sortStrings (xs.map intEntry) := by
  rw [Flatten, collect_seq_primitives rt _ tyS _ hS, List.map_map]
  · rfl
  · intro x hx
    obtain ⟨i, _, rfl⟩ := List.mem_map.1 hx
    refine ⟨rfl, fun t ht => ?_⟩
    simp only [typeOf, Option.some.injEq] at ht
    rw [← ht]
    exact hI

theorem map_intEntry_perm_iff (xs ys : List Int) :
    (xs.map intEntry).Perm (ys.map intEntry) ↔ xs.Perm ys := by
  constructor
  · intro h
    have h1 : Multiset.map intEntry (xs : Multiset Int) = Multiset.map intEntry ys := by
      rw [Multiset.map_coe, Multiset.map_coe]
      exact Multiset.coe_eq_coe.2 h
    exact Multiset.coe_eq_coe.1
      (Multiset.map_injective (fun _ _ h => intEntry_injective h) h1)
  · exact fun h => h.map _

/-- C11, as the code behaves: for sequences of integers `xs` and `ys` (no
transformer registered for the sequence type nor for the integer type),
`FlattenCompare` without options returns true exactly when `ys` is a
rearrangement of `xs`; so it returns true when they are identical and false
when they differ in length. -/
theorem FlattenCompare_int_seq (rt : Runtime) (tyS tyI : Ty) (xs ys : List Int)
    (hS : rt.transformers tyS = none) (hI : rt.transformers tyI = none) :
    (FlattenCompare rt (.seq tyS (xs.map (Value.int tyI)))
        (.seq tyS (ys.map (Value.int tyI))) [] = true ↔ xs.Perm ys) ∧
      (xs = ys →
        FlattenCompare rt (.seq tyS (xs.map (Value.int tyI)))
          (.seq tyS (ys.map (Value.int tyI))) [] = true) ∧
      (xs.length ≠ ys.length →
        FlattenCompare rt (.seq tyS (xs.map (Value.int tyI)))
          (.seq tyS (ys.map (Value.int tyI))) [] = false) := by
  have hgood : ∀ l : List Int, ∀ s ∈ sortStrings (l.map intEntry),
      s ≠ "" ∧ '|' ∉ s.toList := by
    intro l s hs
    obtain ⟨i, _, rfl⟩ := List.mem_map.1 ((sortStrings_perm _).subset hs)
    exact intEntry_no_sep i
  have hiff : FlattenCompare rt (.seq tyS (xs.map (Value.int tyI)))
      (.seq tyS (ys.map (Value.int tyI))) [] = true ↔ xs.Perm ys := by
    simp only [FlattenCompare, Flatten_int_seq rt tyS tyI _ hS hI, beq_iff_eq]
    constructor
    · intro h
      have hl := Join_injective _ _ (hgood xs) (hgood ys) h
      exact (map_intEntry_perm_iff xs ys).1
        (((sortStrings_perm _).symm.trans (hl ▸ List.Perm.refl _)).trans (sortStrings_perm _))
    · intro h
      rw [sortStrings_eq_of_perm ((map_intEntry_perm_iff xs ys).2 h)]
  refine ⟨hiff, fun h => hiff.2 (h ▸ List.Perm.refl _), fun h => ?_⟩
  cases hc : FlattenCompare rt (.seq tyS (xs.map (Value.int tyI)))
      (.seq tyS (ys.map (Value.int tyI))) []
  · rfl
  · exact absurd (hiff.1 hc).length_eq h

/-- C11 at the sequences of the repository's tests: `[1, 2, 3]` against
`[1, 2]`. -/
theorem FlattenCompare_int_seq_witness :
    FlattenCompare Runtime.bare
        (.seq (.named "[]int") ([1, 2, 3].map (Value.int (.named "int"))))
        (.seq (.named "[]int") ([1, 2].map (Value.int (.named "int")))) [] = false :=
  (FlattenCompare_int_seq Runtime.bare (.named "[]int") (.named "int") [1, 2, 3] [1, 2]
    rfl rfl).2.2 (by decide)

/-- C11 as stated fails: the sequences `[1, 2]` and `[2, 1]` differ at both
positions and `FlattenCompare` returns true. -/
theorem FlattenCompare_int_seq_counterexample :
    FlattenCompare Runtime.bare
        (.seq (.named "[]int") [.int (.named "int") 1, .int (.named "int") 2])
        (.seq (.named "[]int") [.int (.named "int") 2, .int (.named "int") 1]) [] = true := by
  decide

end flatten
